import Mathlib

/-!
# TodoApp: a shallow embedding of the command loop and its persistence

The development follows `src/main.cpp` and `src/dependencies/FileHandler.hpp`.

* A `std::string` is a list of characters (`Str`); an `fs::path` is used by the
  program only through concatenation (`operator+=`), `string()` and `filename()`,
  so it is represented by its string form (`Path`).
* The file system holds the content of each regular file and the set of directories,
  both keyed by the path string as written (POSIX generic format, separator `/`, no
  normalisation of `.`, `..` or repeated separators).  Files are text-mode contents.
  Creating a file fails when its parent is a regular file; creating directories throws
  for the empty path and when a component is a regular file; a directory cannot be
  opened for writing.  Permission and device errors are not modelled.
* `std::string::npos` is `none`: it exceeds every string size.
* An uncaught C++ exception ends the process (`Step.terminated`, and `none` for the
  file operations); signed overflow, reading an uninitialised `int` and pointer
  arithmetic before the start of a buffer are `undefined`.
-/

namespace TodoApp

/-- Byte strings of the program (`std::string`). -/
abbrev Str := List Char

/-- Paths (`fs::path`), identified with their string form. -/
abbrev Path := List Char

/-- File system: the content of each existing regular file and the existing
directories. -/
structure FileSystem where
  /-- Content of the regular file at a path, if there is one. -/
  file : Path → Option Str
  /-- Whether a directory is at a path. -/
  dir : Path → Bool

/-! ## `std::string` operations used by the program -/

/-- Position of the first occurrence of `c` in `s`
(`std::string::find_first_of(char)`); `none` stands for `npos`. -/
def findFirstOf (s : Str) (c : Char) : Option Nat :=
  match s with
  | [] => none
  | x :: xs => if x = c then some 0 else (findFirstOf xs c).map (· + 1)

/-- Test of the last character (`std::string::ends_with(char)`). -/
def endsWith (s : Str) (c : Char) : Bool :=
  s.getLast? = some c

/-- In-place replacement `s.replace(pos, len, r)`: the range is clipped to the end of
the string, and a position beyond the size throws `std::out_of_range` (`none`). -/
def replace (s : Str) (pos len : Nat) (r : Str) : Option Str :=
  if pos ≤ s.length then some (s.take pos ++ r ++ s.drop (pos + len)) else none

/-- Decimal rendering of an unsigned integer (`std::format` with a plain
replacement field, `operator<<` on `std::size_t`). -/
def toDecimal (n : Nat) : Str :=
  Nat.toDigits 10 n

/-- Classification `std::isspace` in the default locale. -/
def isspace (c : Char) : Bool :=
  c = ' ' || c = '\t' || c = '\n' || c = Char.ofNat 11 || c = Char.ofNat 12 || c = '\r'

/-! ## `FileHandler` -/

/-- Existence test `fs::exists`: a regular file or a directory is at the path. -/
def pathExists (files : FileSystem) (p : Path) : Bool :=
  (files.file p).isSome || files.dir p

/-- Whether a directory, and no regular file, is at the path. -/
def isDirectory (files : FileSystem) (p : Path) : Bool :=
  (files.file p).isNone && files.dir p

/-- The file system in which the regular file `p` holds `content` and everything else
is as before. -/
def storeFile (files : FileSystem) (p : Path) (content : Str) : FileSystem :=
  ⟨fun q => if q = p then some content else files.file q, files.dir⟩

/-- Component `fs::path::parent_path`: the path without its last component and the
separators before it; the root directory is its own parent. -/
def parentPath (p : Path) : Path :=
  let withoutName := p.reverse.dropWhile (fun c => c != '/')
  let withoutSeparators := withoutName.dropWhile (fun c => c == '/')
  if withoutSeparators.isEmpty && !withoutName.isEmpty then ['/']
  else withoutSeparators.reverse

/-- The directory `d` and the directories above it, innermost first; `fuel` bounds the
number of components. -/
def ancestorChain (fuel : Nat) (d : Path) : List Path :=
  match fuel with
  | 0 => []
  | fuel + 1 =>
    if d.isEmpty then []
    else if parentPath d = d then [d]
    else d :: ancestorChain fuel (parentPath d)

/-- Library call `fs::create_directories` (throwing overload): `none` when it throws,
for the empty path and when the directory or one above it is a regular file; otherwise
whether a directory was created, and the file system with `d` and every directory above
it present. -/
def createDirectories (files : FileSystem) (d : Path) : Option (Bool × FileSystem) :=
  if d.isEmpty then none
  else if (ancestorChain (d.length + 1) d).any (fun a => (files.file a).isSome) then none
  else if files.dir d then some (false, files)
  else
    some (true,
      ⟨files.file, fun q => files.dir q || (ancestorChain (d.length + 1) d).contains q⟩)

/-- Opening a not yet existing file with `std::ofstream::open`: it succeeds when the
parent is the current directory or an existing directory. -/
def canOpenNewFile (files : FileSystem) (p : Path) : Bool :=
  !isDirectory files p && ((parentPath p).isEmpty || isDirectory files (parentPath p))

/-- Creation `FileHandler::CreateFile`: `none` when `fs::create_directories` throws,
otherwise the returned flag and the new file system.  An existing path is left alone;
otherwise the parent directories are created when the parent does not exist, and the
empty file is created when it can be opened. -/
def CreateFile (files : FileSystem) (path : Path) : Option (Bool × FileSystem) :=
  if pathExists files path then some (true, files)
  else
    let ensured : Option (Bool × FileSystem) :=
      if pathExists files (parentPath path) then some (true, files)
      else createDirectories files (parentPath path)
    match ensured with
    | none => none
    | some (false, files1) => some (false, files1)
    | some (true, files1) =>
      if canOpenNewFile files1 path then some (true, storeFile files1 path [])
      else some (false, files1)

/-- Writing `FileHandler::WriteToFile`: `append = false` is the default open mode
`std::ios::out` (truncate), `append = true` is `std::ios::app`; `none` when
`CreateFile` throws.  A directory cannot be opened for writing. -/
def WriteToFile (files : FileSystem) (path : Path) (buffer : Str) (append : Bool) :
    Option (Bool × FileSystem) :=
  match CreateFile files path with
  | none => none
  | some (false, files1) => some (false, files1)
  | some (true, files1) =>
    match files1.file path with
    | none => some (false, files1)
    | some old => some (true, storeFile files1 path (if append then old ++ buffer else buffer))

/-- The loop `while (std::getline(inStream, line)) buffer.emplace_back(line)` over the
remaining stream `rest`, with `cur` the characters extracted so far for the current
line.  A line ends at a line feed (discarded) or at the end of the stream; reaching
the end of the stream without having extracted a character fails and ends the loop. -/
def getLinesLoop (cur : Str) (rest : Str) : List Str :=
  match rest with
  | [] => if cur.isEmpty then [] else [cur]
  | c :: cs => if c = '\n' then cur :: getLinesLoop [] cs else getLinesLoop (cur ++ [c]) cs

/-- All lines of a file content, as read by repeated `std::getline`. -/
def readLines (content : Str) : List Str :=
  getLinesLoop [] content

/-- Reading `FileHandler::GetLinesFromFile`: fails when nothing exists at the path,
otherwise appends every line of the file to `buffer`; a directory can be opened for
reading but yields no line. -/
def GetLinesFromFile (files : FileSystem) (p : Path) (buffer : List Str) :
    Bool × List Str :=
  if pathExists files p then
    match files.file p with
    | none => (true, buffer)
    | some content => (true, buffer ++ readLines content)
  else (false, buffer)

/-! ## Command tokenizer -/

/-- Tokenizer `getNext`: returns the command and the new value of `input`. -/
def getNext (input : Str) : Str × Str :=
  match findFirstOf input ' ' with
  | none => (input, [])
  | some commandLen => (input.take commandLen, input.drop (commandLen + 1))

/-- Specification reading of the tokenizer: the command is what stands before the
first whitespace character, the remainder is what follows that one character. -/
def specGetNext (input : Str) : Str × Str :=
  (input.takeWhile (fun c => !isspace c), (input.dropWhile (fun c => !isspace c)).drop 1)

/-! ## Integer extraction (`std::istringstream >> int`) -/

/-- Largest value of `int`. -/
def INT_MAX : Int := 2147483647

/-- Smallest value of `int`. -/
def INT_MIN : Int := -2147483648

/-- Value of a run of decimal digits. -/
def digitsValue (ds : Str) : Nat :=
  ds.foldl (fun acc c => 10 * acc + (c.toNat - '0'.toNat)) 0

/-- The value left in the uninitialised `index` by `iss >> index` on a stream holding
`s`: leading whitespace is skipped; when nothing follows, the stream sentry fails and
`index` is not written (`none`); otherwise an optional sign and the longest run of
decimal digits are consumed; without digits the extraction fails and stores `0`; a
value outside the range of `int` stores the nearest bound. -/
def extractInt (s : Str) : Option Int :=
  let body := s.dropWhile isspace
  if body.isEmpty then none
  else
    let signed : Bool × Str :=
      match body with
      | '-' :: t => (true, t)
      | '+' :: t => (false, t)
      | _ => (false, body)
    let digits := signed.2.takeWhile Char.isDigit
    if digits.isEmpty then some 0
    else
      let magnitude : Int := (digitsValue digits : Nat)
      let value := if signed.1 then -magnitude else magnitude
      if value > INT_MAX then some INT_MAX
      else if value < INT_MIN then some INT_MIN else some value

/-! ## List session -/

/-- Messages of the session loop, by kind. -/
inductive Diagnostic where
  /-- Message "Failed to add an entry!" with the usage line (empty argument). -/
  | addUsage
  /-- Message "failed do mark entry as done! no entry with index[..]". -/
  | noEntry (index : Int)
  /-- Message "Unknown command[..]" followed by the session commands. -/
  | unknownCommand (command : Str)
deriving DecidableEq

/-- State of the session loop of `main`: the file system, the file of the open list,
the vector `entries` and the counter `count`. -/
structure Session where
  /-- Files on disk. -/
  files : FileSystem
  /-- Path of the open list. -/
  currentTodoList : Path
  /-- In-memory entries. -/
  entries : List Str
  /-- Display index given to the next added entry. -/
  count : Nat

/-- Result of one iteration of the session loop. -/
inductive Step where
  /-- The loop continues with the given state; `diag` is the message of `main`, if
  one was printed. -/
  | next (s : Session) (diag : Option Diagnostic)
  /-- Command `close`: back to the menu. -/
  | close (s : Session)
  /-- Command `exit`: the program ends normally. -/
  | exit (s : Session)
  /-- An exception left `main`; no further statement of the iteration ran. -/
  | terminated
  /-- The iteration has undefined behaviour. -/
  | undefined

/-- The text of a new entry, `std::format` with arguments `count` and `description`. -/
def formatEntry (count : Nat) (description : Str) : Str :=
  toDecimal count ++ "\t[ ] - ".toList ++ description ++ "\n".toList

/-- Session command `add`, with `inputBuffer` the remainder of the line. -/
def sessionAdd (s : Session) (inputBuffer : Str) : Step :=
  if inputBuffer.isEmpty then Step.next s (some Diagnostic.addUsage)
  else
    let entries := s.entries ++ [formatEntry s.count inputBuffer]
    match WriteToFile s.files s.currentTodoList (formatEntry s.count inputBuffer) true with
    | none => Step.terminated
    | some written => Step.next ⟨written.2, s.currentTodoList, entries, s.count + 1⟩ none

/-- The statement `entries.at(index).replace(entries.at(index).find_first_of(OPEN), 3, "[X]")`
where `OPEN` is the opening bracket; `none` when `vector::at` or `string::replace` throws
`std::out_of_range`. -/
def markDone (entries : List Str) (index : Nat) : Option (List Str) :=
  match entries[index]? with
  | none => none
  | some entry =>
    match findFirstOf entry '[' with
    | none => none
    | some pos => (replace entry pos 3 "[X]".toList).map (fun e => entries.set index e)

/-- The string `out` built by the rewrite loop of `done`. -/
def serializeEntries (entries : List Str) : Str :=
  entries.foldl (fun out e => if endsWith e '\n' then out ++ e else out ++ (e ++ ['\n'])) []

/-- Session command `done`, with `inputBuffer` the remainder of the line. -/
def sessionDone (s : Session) (inputBuffer : Str) : Step :=
  if inputBuffer.isEmpty then Step.next s (some Diagnostic.addUsage)
  else
    match extractInt inputBuffer with
    | none => Step.undefined
    | some parsed =>
      if parsed = INT_MIN then Step.undefined
      else
        let index := parsed - 1
        let marked : Option (List Str × Option Diagnostic) :=
          if 0 ≤ index ∧ index ≤ (s.entries.length : Int) then
            (markDone s.entries index.toNat).map (fun es => (es, none))
          else some (s.entries, some (Diagnostic.noEntry index))
        match marked with
        | none => Step.terminated
        | some (entries, diag) =>
          match WriteToFile s.files s.currentTodoList (serializeEntries entries) false with
          | none => Step.terminated
          | some written => Step.next ⟨written.2, s.currentTodoList, entries, s.count⟩ diag

/-- One iteration of the session loop on the input line `line`. -/
def sessionStep (s : Session) (line : Str) : Step :=
  let tok := getNext line
  if tok.1 = "close".toList then Step.close s
  else if tok.1 = "add".toList then sessionAdd s tok.2
  else if tok.1 = "done".toList then sessionDone s tok.2
  else if tok.1 = "exit".toList then Step.exit s
  else Step.next s (some (Diagnostic.unknownCommand tok.1))

/-- The session state after the loop has processed `lines` one after the other, when
every one of these iterations continued the loop. -/
def sessionAfter (s : Session) (lines : List Str) : Option Session :=
  match lines with
  | [] => some s
  | l :: ls =>
    match sessionStep s l with
    | Step.next s1 _ => sessionAfter s1 ls
    | _ => none

/-- The state with which the loop continues, if it does. -/
def Step.continued (r : Step) : Option Session :=
  match r with
  | Step.next s _ => some s
  | _ => none

/-- The lines obtained by reading the file of the open list again. -/
def reloadedLines (s : Session) : List Str :=
  (GetLinesFromFile s.files s.currentTodoList []).2

/-- The file of the open list holds exactly the serialised in-memory entries. -/
abbrev FileInSync (s : Session) : Prop :=
  s.files.file s.currentTodoList = some (serializeEntries s.entries)

/-- Whether an input line is a session `add` with a non-empty description. -/
def isAcceptedAdd (line : Str) : Bool :=
  (getNext line).1 = "add".toList && !(getNext line).2.isEmpty

/-- An entry without its trailing line terminator, if it has one. -/
def stripTerminator (e : Str) : Str :=
  if endsWith e '\n' then e.dropLast else e

/-! ## Menu loop -/

/-- Path of the list named "a". -/
def demoPath : Path := "todo_lists/a.txt".toList

/-- The file system without any file or directory. -/
def noFiles : FileSystem :=
  ⟨fun _ => none, fun _ => false⟩

/-- The file system whose only directory is "todo_lists" and which has no file. -/
def listDirOnly : FileSystem :=
  ⟨fun _ => none, fun q => q = "todo_lists".toList⟩

/-- A file system whose only directory is "todo_lists" and whose only file is the list
file of "a", with the given content. -/
def demoFiles (content : Str) : FileSystem :=
  storeFile listDirOnly demoPath content

/-- The session on the list "a" with the given files, entries and counter. -/
def demoSession (files : FileSystem) (entries : List Str) (count : Nat) : Session :=
  ⟨files, demoPath, entries, count⟩

/-- Directory of the list files (`dirPath` in `main`). -/
def dirPath : Path := "todo_lists/".toList

/-- Index file of the registry (`listDirPath` in `main`). -/
def listDirPath : Path := "data/paths.txt".toList

/-- Messages of the menu loop, by kind. -/
inductive MenuDiagnostic where
  /-- Message "No name for the todo list was given!". -/
  | noName
  /-- Message "Failed to create new todo list with name[..]. this list already exist". -/
  | alreadyExists (listName : Str)
  /-- Message "Failed to open todo list with name[..]". -/
  | openNoName
  /-- Message "Failed to open list with name[..]. This list doesn't exist". -/
  | doesNotExist (name : Str)
  /-- Message "Unknown command[..]" followed by the menu commands. -/
  | unknownCommand (command : Str)
  /-- Message "Failed to create file: .." or "Failed to create directories: .." of
  `FileHandler::CreateFile`. -/
  | createFailed
deriving DecidableEq

/-- State of the menu loop: the file system and the registry `todoListPaths`. -/
structure Menu where
  /-- Files on disk. -/
  files : FileSystem
  /-- Registry of list files, in insertion order. -/
  todoListPaths : List Path

/-- The path built by `addNewTodoList` (and tested with `fs::exists`) for a directory
and a list name. -/
def derivedPath (dir : Path) (listName : Str) : Path :=
  (if !endsWith dir '/' && endsWith dir (Char.ofNat 92) then dir ++ ['/'] else dir)
    ++ listName ++ ".txt".toList

/-- Function `addNewTodoList`: `none` when `CreateFile` throws, otherwise the returned
path (empty on failure), the new file system and the message printed, if any. -/
def addNewTodoList (files : FileSystem) (dir : Path) (listName : Str) :
    Option (Path × FileSystem × Option MenuDiagnostic) :=
  let path := derivedPath dir listName
  if pathExists files path then
    some ([], files, some (MenuDiagnostic.alreadyExists listName))
  else
    match CreateFile files path with
    | none => none
    | some (false, files1) => some ([], files1, some MenuDiagnostic.createFailed)
    | some (true, files1) => some (path, files1, none)

/-- Menu command `add`, with `inputBuffer` the remainder of the line: `none` when an
exception leaves `main`, otherwise the new state and the message printed, if any. -/
def menuAdd (m : Menu) (inputBuffer : Str) : Option (Menu × Option MenuDiagnostic) :=
  let command := (getNext inputBuffer).1
  if command.isEmpty then some (m, some MenuDiagnostic.noName)
  else
    match addNewTodoList m.files dirPath command with
    | none => none
    | some added =>
      if added.1.isEmpty then some (⟨added.2.1, m.todoListPaths⟩, added.2.2)
      else some (⟨added.2.1, m.todoListPaths ++ [added.1]⟩, added.2.2)

/-- The path of the list opened by the menu command `open` for a list name. -/
def openPath (name : Str) : Path :=
  dirPath ++ name ++ ".txt".toList

/-- Menu command `open`, with `inputBuffer` the remainder of the line: the session that
starts, or the message shown when none starts. -/
def menuOpen (m : Menu) (inputBuffer : Str) : Except MenuDiagnostic Session :=
  let name := (getNext inputBuffer).1
  if name.isEmpty then Except.error MenuDiagnostic.openNoName
  else
    let read := GetLinesFromFile m.files (openPath name) []
    if !read.1 then Except.error (MenuDiagnostic.doesNotExist name)
    else Except.ok ⟨m.files, openPath name, read.2, read.2.length + 1⟩

/-- Directory separators of `fs::path`: the slash, and on Windows also the backslash. -/
def isSeparator (windows : Bool) (c : Char) : Bool :=
  c = '/' || (windows && c = Char.ofNat 92)

/-- Component `fs::path::filename` in the generic format: what follows the last
directory separator.  The platform is the parameter `windows`; root names (drive
letters) are not modelled. -/
def filename (windows : Bool) (p : Path) : Str :=
  (p.reverse.takeWhile (fun c => !isSeparator windows c)).reverse

/-- The statement `name.erase(name.end() - 4, name.end())`; `none` when the name has
fewer than four characters, where the iterator arithmetic is undefined. -/
def eraseLastFour (name : Str) : Option Str :=
  if 4 ≤ name.length then some (name.take (name.length - 4)) else none

/-- The lines printed by the loop of the menu command `list`, starting with the
counter value `count`; `none` when an iteration is undefined. -/
def listLines (windows : Bool) (count : Nat) (paths : List Path) : Option (List Str) :=
  match paths with
  | [] => some []
  | p :: ps =>
    match eraseLastFour (filename windows p) with
    | none => none
    | some name =>
      (listLines windows (count + 1) ps).map
        (fun rest => (toDecimal count ++ " : ".toList ++ name ++ "\n".toList) :: rest)

/-- Specification reading of the name shown by `list`: the base file name of the path
with the suffix ".txt" stripped, and nothing else removed. -/
def specListName (windows : Bool) (p : Path) : Str :=
  match (filename windows p).reverse with
  | 't' :: 'x' :: 't' :: '.' :: rest => rest.reverse
  | _ => filename windows p

/-- Result of one iteration of the menu loop. -/
inductive MenuStep where
  /-- The loop continues; `out` are the lines printed by `list`. -/
  | next (m : Menu) (out : List Str) (diag : Option MenuDiagnostic)
  /-- A session starts on the opened list. -/
  | session (m : Menu) (s : Session)
  /-- Command `exit`: the loop ends. -/
  | exit (m : Menu)
  /-- An exception left `main`. -/
  | terminated
  /-- The iteration has undefined behaviour. -/
  | undefined

/-- One iteration of the menu loop on the input line `line`, up to the start of a
session. -/
def menuStep (windows : Bool) (m : Menu) (line : Str) : MenuStep :=
  let tok := getNext line
  if tok.1 = "exit".toList then MenuStep.exit m
  else if tok.1 = "list".toList then
    match listLines windows 1 m.todoListPaths with
    | none => MenuStep.undefined
    | some out => MenuStep.next m out none
  else if tok.1 = "add".toList then
    match menuAdd m tok.2 with
    | none => MenuStep.terminated
    | some added => MenuStep.next added.1 [] added.2
  else if tok.1 = "open".toList then
    match menuOpen m tok.2 with
    | Except.error d => MenuStep.next m [] (some d)
    | Except.ok s => MenuStep.session m s
  else MenuStep.next m [] (some (MenuDiagnostic.unknownCommand tok.1))

/-! ## Rendering, registry persistence and the entry pattern -/

/-- Function `printEntries`: the text written to standard output. -/
def printEntries (entries : List Str) : Str :=
  entries.foldl
    (fun out entry => if endsWith entry '\n' then out ++ entry else out ++ entry ++ ['\n']) []

/-- Start of `main`: the index file is created when absent (the result of `CreateFile`
is not looked at) and read line by line, and every line read is put into the registry
`todoListPaths`, in order; `none` when `CreateFile` throws. -/
def loadRegistry (files : FileSystem) : Option Menu :=
  match CreateFile files listDirPath with
  | none => none
  | some created =>
    let listDirPathBuffer := (GetLinesFromFile created.2 listDirPath []).2
    some ⟨created.2,
      listDirPathBuffer.foldl (fun todoListPaths path => todoListPaths ++ [path]) []⟩

/-- End of `main`: the string `outString` is built from the registry and written over
the index file; `none` when `WriteToFile` throws. -/
def persistRegistry (m : Menu) : Option FileSystem :=
  (WriteToFile m.files listDirPath
    (m.todoListPaths.foldl (fun outString path => outString ++ (path ++ "\n".toList)) [])
    false).map (fun written => written.2)

/-- Function `signalHandler`, up to the call of `exit`: `mPath` and `mPaths` are the
references held by `save_data_ptr`; `none` when `WriteToFile` throws. -/
def signalHandler (mPath : Path) (mPaths : List Path) (files : FileSystem) :
    Option FileSystem :=
  (WriteToFile files mPath
    (mPaths.foldl (fun outString path => outString ++ (path ++ "\n".toList)) [])
    false).map (fun written => written.2)

/-- Specification pattern of an entry: a non-empty decimal index, a tabulator, the
completion marker "[ ]" or "[X]", the separator " - " and a free description. -/
def EntryForm (e : Str) : Prop :=
  ∃ digits marker desc,
    e = digits ++ '\t' :: '[' :: marker :: ']' :: ' ' :: '-' :: ' ' :: desc
      ∧ digits ≠ [] ∧ (∀ c ∈ digits, c.isDigit = true) ∧ (marker = ' ' ∨ marker = 'X')

/-- Executable test of the entry pattern. -/
def isEntryLine (e : Str) : Bool :=
  !(e.takeWhile Char.isDigit).isEmpty
    && ("\t[ ] - ".toList.isPrefixOf (e.dropWhile Char.isDigit)
      || "\t[X] - ".toList.isPrefixOf (e.dropWhile Char.isDigit))

end TodoApp

namespace TodoApp

/-! ## Facts about the string operations -/

theorem findFirstOf_eq_none_iff (s : Str) (c : Char) : findFirstOf s c = none ↔ c ∉ s := by
  induction s with
  | nil => simp [findFirstOf]
  | cons x xs ih =>
    by_cases hx : x = c
    · simp [findFirstOf, hx]
    · have hx2 : ¬ c = x := fun h => hx h.symm
      simp [findFirstOf, hx, hx2, ih]

theorem findFirstOf_eq_some (s : Str) (c : Char) (n : Nat) (h : findFirstOf s c = some n) :
    s = s.take n ++ c :: s.drop (n + 1) ∧ c ∉ s.take n ∧ n < s.length := by
  induction s generalizing n with
  | nil => simp [findFirstOf] at h
  | cons x xs ih =>
    by_cases hx : x = c
    · simp [findFirstOf, hx] at h
      subst h
      simp [hx]
    · have hx2 : ¬ c = x := fun h => hx h.symm
      simp only [findFirstOf, hx, if_false, Option.map_eq_some'] at h
      obtain ⟨m, hm, rfl⟩ := h
      obtain ⟨h1, h2, h3⟩ := ih m hm
      refine ⟨?_, ?_, ?_⟩
      · simp only [List.take_succ_cons, List.drop_succ_cons, List.cons_append]
        rw [← h1]
      · simp [hx2, h2]
      · simp [h3]

theorem findFirstOf_append_cons (pre post : Str) (c : Char) (h : c ∉ pre) :
    findFirstOf (pre ++ c :: post) c = some pre.length := by
  induction pre with
  | nil => simp [findFirstOf]
  | cons x xs ih =>
    have hx : ¬ x = c := fun e => h (by simp [e])
    have hxs : c ∉ xs := fun e => h (by simp [e])
    simp [findFirstOf, hx, ih hxs]

theorem getNext_eq_takeWhile (line : Str) :
    getNext line
      = (line.takeWhile (fun c => c != ' '), (line.dropWhile (fun c => c != ' ')).drop 1) := by
  induction line with
  | nil => simp [getNext, findFirstOf]
  | cons x xs ih =>
    by_cases hx : x = ' '
    · simp [getNext, findFirstOf, hx]
    · have hb : (x != ' ') = true := by simp [hx]
      have hT : (x :: xs).takeWhile (fun c => c != ' ')
          = x :: xs.takeWhile (fun c => c != ' ') := by
        simp [List.takeWhile_cons, hb]
      have hD : (x :: xs).dropWhile (fun c => c != ' ')
          = xs.dropWhile (fun c => c != ' ') := by
        simp [List.dropWhile_cons, hb]
      rw [hT, hD]
      unfold getNext at ih ⊢
      simp only [findFirstOf, hx, if_false]
      cases hf : findFirstOf xs ' ' with
      | none =>
        simp only [hf] at ih
        have h1 := congrArg Prod.fst ih
        have h2 := congrArg Prod.snd ih
        simp only at h1 h2
        simp only [Option.map_none']
        rw [← h1, ← h2]
      | some n =>
        simp only [hf] at ih
        have h1 := congrArg Prod.fst ih
        have h2 := congrArg Prod.snd ih
        simp only at h1 h2
        simp only [Option.map_some']
        rw [← h1, ← h2]
        simp

/-! ## C1: the tokenizer -/

/-- C1, as stated, fails: on the line "a<TAB>b c" the first whitespace character is the
tabulator, so the claimed command is "a" with remainder "b c", whereas `getNext` splits
at the first space and returns the command "a<TAB>b" with remainder "c". -/
theorem getNext_whitespace_counterexample :
    getNext "a\tb c".toList = ("a\tb".toList, "c".toList)
      ∧ specGetNext "a\tb c".toList = ("a".toList, "b c".toList)
      ∧ getNext "a\tb c".toList ≠ specGetNext "a\tb c".toList := by
  decide

/-- C1 (amended): for every input line, `getNext` returns as the command the characters
before the first space character and replaces the line by what follows that one space;
when the line contains no space the command is the whole line and the remainder is
empty.  "add call mom" gives "add" and "call mom"; "close" gives "close" and "". -/
theorem getNext_first_space_token (line : Str) :
    getNext line
        = (line.takeWhile (fun c => c != ' '), (line.dropWhile (fun c => c != ' ')).drop 1)
      ∧ (' ' ∉ line → getNext line = (line, []))
      ∧ getNext "add call mom".toList = ("add".toList, "call mom".toList)
      ∧ getNext "close".toList = ("close".toList, []) := by
  refine ⟨getNext_eq_takeWhile line, ?_, by decide, by decide⟩
  intro h
  simp [getNext, (findFirstOf_eq_none_iff line ' ').2 h]

/-! ## Facts about the file operations -/

theorem storeFile_file_same (files : FileSystem) (p : Path) (c : Str) :
    (storeFile files p c).file p = some c := by
  simp [storeFile]

theorem storeFile_file_other (files : FileSystem) (p q : Path) (c : Str) (hq : q ≠ p) :
    (storeFile files p c).file q = files.file q := by
  simp [storeFile, hq]

theorem pathExists_storeFile (files : FileSystem) (p q : Path) (c : Str)
    (h : pathExists files q = true) : pathExists (storeFile files p c) q = true := by
  unfold pathExists storeFile at *
  by_cases hq : q = p <;> simp_all

theorem pathExists_of_file (files : FileSystem) (p : Path) (c : Str)
    (h : files.file p = some c) : pathExists files p = true := by
  simp [pathExists, h]

theorem createDirectories_some (files : FileSystem) (d : Path) (w : Bool × FileSystem)
    (h : createDirectories files d = some w) :
    w.2.file = files.file ∧ (∀ q, files.dir q = true → w.2.dir q = true) := by
  unfold createDirectories at h
  split at h
  · cases h
  · split at h
    · cases h
    · split at h
      · cases h; exact ⟨rfl, fun _ hq => hq⟩
      · cases h
        exact ⟨rfl, fun q hq => by simp [hq]⟩

theorem ensureParent_some (files files1 : FileSystem) (d : Path) (b : Bool)
    (h : (if pathExists files d = true then some (true, files)
          else createDirectories files d) = some (b, files1)) :
    files1.file = files.file ∧ (∀ q, files.dir q = true → files1.dir q = true) := by
  split at h
  · cases h; exact ⟨rfl, fun _ hq => hq⟩
  · exact createDirectories_some _ _ _ h

theorem pathExists_mono (files files1 : FileSystem) (hfile : files1.file = files.file)
    (hdir : ∀ q, files.dir q = true → files1.dir q = true) (q : Path)
    (hq : pathExists files q = true) : pathExists files1 q = true := by
  unfold pathExists at hq ⊢
  rw [hfile]
  rcases Bool.or_eq_true_iff.1 hq with hq | hq
  · simp [hq]
  · simp [hdir q hq]

/-- What `CreateFile` does to the regular files: nothing, or the empty file appears at
a path where nothing was. -/
theorem CreateFile_some (files : FileSystem) (p : Path) (w : Bool × FileSystem)
    (h : CreateFile files p = some w) :
    (∀ q, q ≠ p → w.2.file q = files.file q)
      ∧ (w.2.file p = files.file p
          ∨ (w.1 = true ∧ pathExists files p = false ∧ w.2.file p = some []))
      ∧ (∀ q, pathExists files q = true → pathExists w.2 q = true)
      ∧ (w.1 = true → pathExists w.2 p = true)
      ∧ (w.1 = true → pathExists files p = false → w.2.file p = some []) := by
  unfold CreateFile at h
  by_cases hex : pathExists files p = true
  · rw [if_pos hex] at h
    cases h
    exact ⟨fun _ _ => rfl, Or.inl rfl, fun _ hq => hq, fun _ => hex,
      fun _ hn => by rw [hex] at hn; cases hn⟩
  · rw [if_neg hex] at h
    have hex2 : pathExists files p = false := by simpa using hex
    simp only at h
    cases hens : (if pathExists files (parentPath p) = true then some (true, files)
        else createDirectories files (parentPath p)) with
    | none => rw [hens] at h; cases h
    | some r =>
      obtain ⟨b, files1⟩ := r
      rw [hens] at h
      obtain ⟨hfile, hdir⟩ := ensureParent_some files files1 _ b hens
      have hmono := pathExists_mono files files1 hfile hdir
      cases b with
      | false =>
        simp only at h
        cases h
        exact ⟨fun q _ => by rw [hfile], Or.inl (by rw [hfile]), hmono,
          (fun h => by cases h), (fun h => by cases h)⟩
      | true =>
        simp only at h
        by_cases hopen : canOpenNewFile files1 p = true
        · rw [if_pos hopen] at h
          cases h
          refine ⟨fun q hq => ?_, Or.inr ⟨rfl, hex2, storeFile_file_same _ _ _⟩,
            fun q hq => pathExists_storeFile _ _ _ _ (hmono q hq),
            fun _ => pathExists_of_file _ _ _ (storeFile_file_same _ _ _),
            fun _ _ => storeFile_file_same _ _ _⟩
          rw [storeFile_file_other _ _ _ _ hq, hfile]
        · rw [if_neg hopen] at h
          cases h
          exact ⟨fun q _ => by rw [hfile], Or.inl (by rw [hfile]), hmono,
            (fun h => by cases h), (fun h => by cases h)⟩

theorem CreateFile_of_exists (files : FileSystem) (p : Path)
    (h : pathExists files p = true) : CreateFile files p = some (true, files) := by
  simp [CreateFile, h]

theorem WriteToFile_of_file (files : FileSystem) (p : Path) (buffer old : Str)
    (append : Bool) (h : files.file p = some old) :
    WriteToFile files p buffer append
      = some (true, storeFile files p (if append then old ++ buffer else buffer)) := by
  simp [WriteToFile, CreateFile_of_exists files p (pathExists_of_file files p old h), h]

theorem WriteToFile_of_exists (files : FileSystem) (p : Path) (buffer : Str)
    (append : Bool) (h : pathExists files p = true) :
    ∃ w, WriteToFile files p buffer append = some w := by
  unfold WriteToFile
  rw [CreateFile_of_exists files p h]
  simp only
  cases files.file p <;> exact ⟨_, rfl⟩

/-- What `WriteToFile` does to the regular files: every other file is kept, and the
file written to either is as before or holds the new content. -/
theorem WriteToFile_some (files : FileSystem) (p : Path) (buffer : Str) (append : Bool)
    (w : Bool × FileSystem) (h : WriteToFile files p buffer append = some w) :
    (∀ q, q ≠ p → w.2.file q = files.file q)
      ∧ (w.2.file p = files.file p
          ∨ w.2.file p = some (if append then (files.file p).getD [] ++ buffer else buffer))
      ∧ (∀ q, pathExists files q = true → pathExists w.2 q = true) := by
  unfold WriteToFile at h
  cases hc : CreateFile files p with
  | none => rw [hc] at h; cases h
  | some r =>
    obtain ⟨b, files1⟩ := r
    rw [hc] at h
    obtain ⟨h1, h2, h3, _, _⟩ := CreateFile_some files p _ hc
    simp only at h1 h2 h3
    cases b with
    | false =>
      simp only at h
      cases h
      refine ⟨h1, ?_, h3⟩
      rcases h2 with h2 | ⟨h2, _⟩
      · exact Or.inl h2
      · cases h2
    | true =>
      simp only at h
      cases hold : files1.file p with
      | none =>
        rw [hold] at h
        cases h
        refine ⟨h1, Or.inl ?_, h3⟩
        rcases h2 with h2 | ⟨_, _, h2⟩
        · exact h2
        · rw [h2] at hold; cases hold
      | some old =>
        rw [hold] at h
        cases h
        refine ⟨fun q hq => by rw [storeFile_file_other _ _ _ _ hq]; exact h1 q hq, ?_,
          fun q hq => pathExists_storeFile _ _ _ _ (h3 q hq)⟩
        right
        rw [storeFile_file_same]
        rcases h2 with h2 | ⟨_, hex, h2⟩
        · rw [← h2, hold]
          rfl
        · rw [h2] at hold
          cases hold
          have hn : files.file p = none := by
            unfold pathExists at hex
            cases hf : files.file p with
            | none => rfl
            | some c => simp [hf] at hex
          rw [hn]
          rfl

theorem menuOpen_ok (m : Menu) (arg : Str) (s0 : Session) (h : menuOpen m arg = Except.ok s0) :
    pathExists m.files (openPath (getNext arg).1) = true
      ∧ s0 = ⟨m.files, openPath (getNext arg).1,
              readLines ((m.files.file (openPath (getNext arg).1)).getD []),
              (readLines ((m.files.file (openPath (getNext arg).1)).getD [])).length + 1⟩ := by
  unfold menuOpen at h
  simp only at h
  split at h
  · cases h
  · cases hex : pathExists m.files (openPath (getNext arg).1) with
    | false => simp [GetLinesFromFile, hex] at h
    | true =>
      refine ⟨rfl, ?_⟩
      cases hf : m.files.file (openPath (getNext arg).1) with
      | none =>
        simp [GetLinesFromFile, hex, hf] at h
        rw [← h]
        simp [readLines, getLinesLoop]
      | some content =>
        simp [GetLinesFromFile, hex, hf] at h
        exact h.symm

/-! ## Facts about the session loop -/

theorem sessionStep_acceptedAdd (s : Session) (line : Str) (h : isAcceptedAdd line = true) :
    sessionStep s line
      = match WriteToFile s.files s.currentTodoList
            (formatEntry s.count (getNext line).2) true with
        | none => Step.terminated
        | some written =>
          Step.next ⟨written.2, s.currentTodoList,
            s.entries ++ [formatEntry s.count (getNext line).2], s.count + 1⟩ none := by
  simp only [isAcceptedAdd, Bool.and_eq_true, decide_eq_true_eq, Bool.not_eq_true'] at h
  obtain ⟨h1, h2⟩ := h
  have hc : ¬ ("add".toList = "close".toList) := by decide
  simp [sessionStep, sessionAdd, h1, h2, hc]

theorem markDone_length (entries es : List Str) (index : Nat)
    (h : markDone entries index = some es) : es.length = entries.length := by
  unfold markDone at h
  split at h
  · cases h
  · split at h
    · cases h
    · simp only [Option.map_eq_some'] at h
      obtain ⟨e, _, rfl⟩ := h
      simp

theorem sessionDone_next (s s1 : Session) (arg : Str) (d : Option Diagnostic)
    (h : sessionDone s arg = Step.next s1 d) :
    s1.currentTodoList = s.currentTodoList ∧ s1.count = s.count
      ∧ s1.entries.length = s.entries.length := by
  unfold sessionDone at h
  split at h
  · cases h; exact ⟨rfl, rfl, rfl⟩
  · split at h
    · cases h
    · rename_i parsed _
      split at h
      · cases h
      · simp only at h
        split at h
        · cases h
        · rename_i es dg hm
          split at h
          · cases h
          · cases h
            refine ⟨rfl, rfl, ?_⟩
            simp only
            split at hm
            · simp only [Option.map_eq_some'] at hm
              obtain ⟨es1, hes, he⟩ := hm
              cases he
              exact markDone_length _ _ _ hes
            · cases hm; rfl

theorem sessionStep_other (s s1 : Session) (line : Str) (d : Option Diagnostic)
    (hacc : isAcceptedAdd line = false) (h : sessionStep s line = Step.next s1 d) :
    s1.currentTodoList = s.currentTodoList ∧ s1.count = s.count
      ∧ s1.entries.length = s.entries.length := by
  unfold sessionStep at h
  simp only at h
  split at h
  · cases h
  · split at h
    · rename_i hadd
      have he : (getNext line).2.isEmpty = true := by
        simpa [isAcceptedAdd, hadd] using hacc
      simp [sessionAdd, he] at h
      obtain ⟨rfl, _⟩ := h
      exact ⟨rfl, rfl, rfl⟩
    · split at h
      · exact sessionDone_next _ _ _ _ h
      · split at h
        · cases h
        · cases h; exact ⟨rfl, rfl, rfl⟩

theorem sessionAfter_counts (s s1 : Session) (lines : List Str)
    (h : sessionAfter s lines = some s1) :
    s1.currentTodoList = s.currentTodoList
      ∧ s1.count = s.count + (lines.filter isAcceptedAdd).length
      ∧ s1.entries.length = s.entries.length + (lines.filter isAcceptedAdd).length := by
  induction lines generalizing s with
  | nil => simp [sessionAfter] at h; subst h; simp
  | cons l ls ih =>
    unfold sessionAfter at h
    cases hacc : isAcceptedAdd l with
    | true =>
      rw [sessionStep_acceptedAdd s l hacc] at h
      cases hw : WriteToFile s.files s.currentTodoList
          (formatEntry s.count (getNext l).2) true with
      | none => rw [hw] at h; cases h
      | some written =>
        rw [hw] at h
        simp only at h
        obtain ⟨h1, h2, h3⟩ := ih _ h
        simp only [List.length_append, List.length_singleton] at h1 h2 h3
        simp only [List.filter_cons, hacc, if_true, List.length_cons]
        exact ⟨h1, by omega, by omega⟩
    | false =>
      cases hs : sessionStep s l with
      | next s2 d =>
        rw [hs] at h
        simp only at h
        obtain ⟨h1, h2, h3⟩ := ih _ h
        obtain ⟨g1, g2, g3⟩ := sessionStep_other s s2 l d hacc hs
        simp only [List.filter_cons, hacc]
        exact ⟨by rw [h1, g1], by simp; omega, by simp; omega⟩
      | close _ => rw [hs] at h; cases h
      | exit _ => rw [hs] at h; cases h
      | terminated => rw [hs] at h; cases h
      | undefined => rw [hs] at h; cases h

/-- The shapes of the state with which an iteration continues the loop. -/
theorem sessionStep_next_cases (s s1 : Session) (line : Str) (d : Option Diagnostic)
    (h : sessionStep s line = Step.next s1 d) :
    (isAcceptedAdd line = true
        ∧ ∃ w, WriteToFile s.files s.currentTodoList
              (formatEntry s.count (getNext line).2) true = some w
          ∧ s1 = ⟨w.2, s.currentTodoList,
              s.entries ++ [formatEntry s.count (getNext line).2], s.count + 1⟩)
      ∨ s1 = s
      ∨ (∃ es w, WriteToFile s.files s.currentTodoList (serializeEntries es) false = some w
          ∧ s1 = ⟨w.2, s.currentTodoList, es, s.count⟩
          ∧ (getNext line).1 = "done".toList
          ∧ ((es = s.entries ∧ ∃ k, d = some (Diagnostic.noEntry k))
              ∨ (d = none ∧ ∃ idx, markDone s.entries idx = some es))) := by
  cases hacc : isAcceptedAdd line with
  | true =>
    rw [sessionStep_acceptedAdd s line hacc] at h
    cases hw : WriteToFile s.files s.currentTodoList
        (formatEntry s.count (getNext line).2) true with
    | none => rw [hw] at h; cases h
    | some w =>
      rw [hw] at h
      cases h
      exact Or.inl ⟨rfl, w, rfl, rfl⟩
  | false =>
    right
    unfold sessionStep at h
    simp only at h
    split at h
    · cases h
    · split at h
      · rename_i hadd
        have he : (getNext line).2.isEmpty = true := by
          simpa [isAcceptedAdd, hadd] using hacc
        simp [sessionAdd, he] at h
        exact Or.inl h.1.symm
      · split at h
        · rename_i hdone
          unfold sessionDone at h
          split at h
          · cases h; exact Or.inl rfl
          · split at h
            · cases h
            · split at h
              · cases h
              · simp only at h
                split at h
                · cases h
                · rename_i es dg hm
                  split at h
                  · cases h
                  · rename_i w hw
                    cases h
                    right
                    refine ⟨es, w, hw, rfl, hdone, ?_⟩
                    split at hm
                    · simp only [Option.map_eq_some'] at hm
                      obtain ⟨es1, hes, he⟩ := hm
                      cases he
                      exact Or.inr ⟨rfl, _, hes⟩
                    · cases hm
                      exact Or.inl ⟨rfl, _, rfl⟩
        · split at h
          · cases h
          · cases h; exact Or.inl rfl

theorem sessionStep_pathExists (s s1 : Session) (line : Str) (d : Option Diagnostic)
    (h : sessionStep s line = Step.next s1 d)
    (hex : pathExists s.files s.currentTodoList = true) :
    pathExists s1.files s1.currentTodoList = true := by
  rcases sessionStep_next_cases s s1 line d h with
    ⟨_, w, hw, rfl⟩ | rfl | ⟨es, w, hw, rfl, _⟩
  · exact (WriteToFile_some _ _ _ _ _ hw).2.2 _ hex
  · exact hex
  · exact (WriteToFile_some _ _ _ _ _ hw).2.2 _ hex

theorem sessionAfter_pathExists (s s1 : Session) (lines : List Str)
    (h : sessionAfter s lines = some s1)
    (hex : pathExists s.files s.currentTodoList = true) :
    pathExists s1.files s1.currentTodoList = true := by
  induction lines generalizing s with
  | nil => simp [sessionAfter] at h; subst h; exact hex
  | cons l ls ih =>
    unfold sessionAfter at h
    cases hstep : sessionStep s l with
    | next s2 d =>
      rw [hstep] at h
      exact ih s2 h (sessionStep_pathExists s s2 l d hstep hex)
    | close _ => rw [hstep] at h; cases h
    | exit _ => rw [hstep] at h; cases h
    | terminated => rw [hstep] at h; cases h
    | undefined => rw [hstep] at h; cases h

/-- A session that was opened and kept running has something at the path of its list. -/
theorem opened_pathExists (m : Menu) (openArg : Str) (s0 s : Session) (cmds : List Str)
    (hopen : menuOpen m openArg = Except.ok s0) (hrun : sessionAfter s0 cmds = some s) :
    pathExists s.files s.currentTodoList = true := by
  obtain ⟨hex, hs0⟩ := menuOpen_ok m openArg s0 hopen
  apply sessionAfter_pathExists s0 s cmds hrun
  rw [hs0]
  exact hex

/-! ## C2: numbering of added entries -/

/-- C2: in a session opened on a list with `n` loaded entries, after any input lines
that kept the session running, of which `k - 1` were accepted `add` commands, the next
accepted `add` with a non-empty description `d` appends exactly the entry
"<n+k><TAB>[ ] - <d><LF>" at the end of the entry sequence and leaves the earlier
entries unchanged; the display index `n + k` is the 1-based position of the new entry.
Lines that are `done` commands or rejected commands do not take part in the count. -/
theorem session_add_numbering (m : Menu) (openArg : Str) (s0 s : Session)
    (cmds : List Str) (line d : Str)
    (hopen : menuOpen m openArg = Except.ok s0)
    (hrun : sessionAfter s0 cmds = some s)
    (hline : getNext line = ("add".toList, d)) (hd : d ≠ []) :
    ∃ s1, sessionStep s line = Step.next s1 none
      ∧ s1.entries = s.entries ++
          [toDecimal (s0.entries.length + ((cmds.filter isAcceptedAdd).length + 1))
            ++ "\t[ ] - ".toList ++ d ++ "\n".toList]
      ∧ s1.entries.length = s0.entries.length + ((cmds.filter isAcceptedAdd).length + 1)
      ∧ s1.entries[s0.entries.length + ((cmds.filter isAcceptedAdd).length + 1) - 1]?
          = some (toDecimal (s0.entries.length + ((cmds.filter isAcceptedAdd).length + 1))
            ++ "\t[ ] - ".toList ++ d ++ "\n".toList) := by
  obtain ⟨_, hs0⟩ := menuOpen_ok m openArg s0 hopen
  have hc0 : s0.count = s0.entries.length + 1 := by rw [hs0]
  obtain ⟨_, hcount, hlen⟩ := sessionAfter_counts s0 s cmds hrun
  obtain ⟨w, hw⟩ := WriteToFile_of_exists s.files s.currentTodoList (formatEntry s.count d)
    true (opened_pathExists m openArg s0 s cmds hopen hrun)
  have hacc : isAcceptedAdd line = true := by
    cases d with
    | nil => exact absurd rfl hd
    | cons a t => simp [isAcceptedAdd, hline]
  have hstep := sessionStep_acceptedAdd s line hacc
  rw [hline] at hstep
  simp only [hw] at hstep
  have hnum : s.count = s0.entries.length + ((cmds.filter isAcceptedAdd).length + 1) := by
    omega
  refine ⟨_, hstep, ?_, ?_, ?_⟩
  · simp only [formatEntry, hnum]
  · simp only [List.length_append, List.length_singleton]
    omega
  · simp only [formatEntry, hnum]
    have hidx : s0.entries.length + ((cmds.filter isAcceptedAdd).length + 1) - 1
        = s.entries.length := by omega
    rw [hidx]
    simp

/-- C2, instance: on the empty list "a", adding "milk" and then "eggs" gives exactly the
entries "1<TAB>[ ] - milk<LF>" and "2<TAB>[ ] - eggs<LF>". -/
theorem session_add_numbering_witness :
    ∃ s1, sessionStep
          (demoSession (storeFile (demoFiles []) demoPath "1\t[ ] - milk\n".toList)
            ["1\t[ ] - milk\n".toList] 2)
          "add eggs".toList = Step.next s1 none
      ∧ s1.entries = ["1\t[ ] - milk\n".toList, "2\t[ ] - eggs\n".toList] := by
  obtain ⟨s1, h1, h2, _⟩ :=
    session_add_numbering ⟨demoFiles [], []⟩ "a".toList (demoSession (demoFiles []) [] 1)
      (demoSession (storeFile (demoFiles []) demoPath "1\t[ ] - milk\n".toList)
        ["1\t[ ] - milk\n".toList] 2)
      ["add milk".toList] "add eggs".toList "eggs".toList rfl rfl rfl (by decide)
  refine ⟨s1, h1, ?_⟩
  rw [h2]
  decide

/-! ## C3 and C4: marking an entry as done -/

theorem replace_at_bracket (pre post : Str) :
    replace (pre ++ '[' :: post) pre.length 3 "[X]".toList
      = some (pre ++ "[X]".toList ++ post.drop 2) := by
  have h : pre.length ≤ (pre ++ '[' :: post).length := by simp
  simp only [replace, h, if_true]
  have h3 : pre.length + 3 = pre.length + (2 + 1) := rfl
  rw [List.take_left, h3, List.drop_append]
  simp

theorem markDone_at_bracket (entries : List Str) (index : Nat) (pre post : Str)
    (he : entries[index]? = some (pre ++ '[' :: post)) (hpre : '[' ∉ pre) :
    markDone entries index
      = some (entries.set index (pre ++ "[X]".toList ++ post.drop 2)) := by
  unfold markDone
  rw [he]
  simp only
  rw [findFirstOf_append_cons pre post '[' hpre]
  simp only
  rw [replace_at_bracket]
  rfl

theorem sessionDone_in_range (s : Session) (arg : Str) (i : Nat)
    (hi : extractInt arg = some (i : Int)) (h1 : 1 ≤ i) (hn : i ≤ s.entries.length + 1) :
    sessionDone s arg
      = match markDone s.entries (i - 1) with
        | none => Step.terminated
        | some es =>
          match WriteToFile s.files s.currentTodoList (serializeEntries es) false with
          | none => Step.terminated
          | some written => Step.next ⟨written.2, s.currentTodoList, es, s.count⟩ none := by
  have hne : arg.isEmpty = false := by
    cases arg with
    | nil =>
      have h0 : extractInt [] = none := by decide
      rw [h0] at hi
      cases hi
    | cons a t => rfl
  have hmin : ¬ ((i : Int) = INT_MIN) := by
    unfold INT_MIN
    omega
  have hrange : 0 ≤ (i : Int) - 1 ∧ (i : Int) - 1 ≤ (s.entries.length : Int) := by
    constructor <;> omega
  have htoNat : ((i : Int) - 1).toNat = i - 1 := by omega
  unfold sessionDone
  simp only [hne, hi, hmin, hrange, htoNat, if_false, if_true, and_self, Bool.false_eq_true]
  cases markDone s.entries (i - 1) <;> rfl

/-- In a session whose list path exists, a `done` with an index in range on an entry
with an opening bracket continues the loop with that entry marked. -/
theorem sessionDone_marks (s : Session) (arg : Str) (i : Nat) (pre post : Str)
    (hex : pathExists s.files s.currentTodoList = true)
    (hi : extractInt arg = some (i : Int)) (h1 : 1 ≤ i)
    (he : s.entries[i - 1]? = some (pre ++ '[' :: post)) (hpre : '[' ∉ pre) :
    ∃ w, WriteToFile s.files s.currentTodoList
          (serializeEntries (s.entries.set (i - 1) (pre ++ "[X]".toList ++ post.drop 2)))
          false = some w
      ∧ sessionDone s arg
          = Step.next ⟨w.2, s.currentTodoList,
              s.entries.set (i - 1) (pre ++ "[X]".toList ++ post.drop 2), s.count⟩ none := by
  have hlt : i - 1 < s.entries.length := by
    rcases List.getElem?_eq_some_iff.1 he with ⟨h, _⟩
    exact h
  obtain ⟨w, hw⟩ := WriteToFile_of_exists s.files s.currentTodoList
    (serializeEntries (s.entries.set (i - 1) (pre ++ "[X]".toList ++ post.drop 2))) false hex
  refine ⟨w, hw, ?_⟩
  rw [sessionDone_in_range s arg i hi h1 (by omega),
    markDone_at_bracket s.entries (i - 1) pre post he hpre]
  simp only [hw]

/-- C3, as stated, fails: on the one-entry sequence whose entry "milk" contains no opening
bracket, `done 1` (index in range) does not complete: `find_first_of` returns `npos` and
`replace` throws, so there is no resulting entry sequence at all. -/
theorem session_done_counterexample :
    sessionStep (demoSession (demoFiles "milk".toList) ["milk".toList] 2) "done 1".toList
      = Step.terminated := by
  rfl

/-- C3 (amended): for every entry sequence of a session (whose list path exists, as it
does from `open` on) and every displayed index `i` with `1 ≤ i ≤ n` whose entry contains
an opening bracket, the session command `done i` changes only the entry at position `i`:
with the entry split at its first opening bracket, the three characters starting there
become "[X]"; every other entry is left exactly as it was, and the number and order of
entries are unchanged. -/
theorem session_done_marks_entry (s : Session) (line arg : Str) (i : Nat) (pre post : Str)
    (hex : pathExists s.files s.currentTodoList = true)
    (hline : getNext line = ("done".toList, arg))
    (hi : extractInt arg = some (i : Int)) (h1 : 1 ≤ i) (hn : i ≤ s.entries.length)
    (he : s.entries[i - 1]? = some (pre ++ '[' :: post)) (hpre : '[' ∉ pre) :
    ∃ s1, sessionStep s line = Step.next s1 none
      ∧ s1.entries[i - 1]? = some (pre ++ "[X]".toList ++ post.drop 2)
      ∧ (∀ j, j ≠ i - 1 → s1.entries[j]? = s.entries[j]?)
      ∧ s1.entries.length = s.entries.length
      ∧ s1.entries = s.entries.set (i - 1) (pre ++ "[X]".toList ++ post.drop 2) := by
  have hd1 : ¬ ("done".toList = "close".toList) := by decide
  have hd2 : ¬ ("done".toList = "add".toList) := by decide
  have hstep : sessionStep s line = sessionDone s arg := by
    simp [sessionStep, hline, hd1, hd2]
  have hlt : i - 1 < s.entries.length := by omega
  obtain ⟨w, _, hdone⟩ := sessionDone_marks s arg i pre post hex hi h1 he hpre
  rw [hstep, hdone]
  refine ⟨_, rfl, ?_, ?_, ?_, rfl⟩
  · simp [List.getElem?_set, hlt]
  · intro j hj
    simp only
    rw [List.getElem?_set_ne (Ne.symm hj)]
  · simp

/-- C3, instance: `done 1` on the entries "1<TAB>[ ] - milk", "2<TAB>[ ] - eggs" gives
"1<TAB>[X] - milk", "2<TAB>[ ] - eggs". -/
theorem session_done_marks_entry_witness :
    ∃ s1, sessionStep
          (demoSession (demoFiles []) ["1\t[ ] - milk".toList, "2\t[ ] - eggs".toList] 3)
          "done 1".toList = Step.next s1 none
      ∧ s1.entries = ["1\t[X] - milk".toList, "2\t[ ] - eggs".toList] := by
  obtain ⟨s1, h1, _, _, _, h5⟩ :=
    session_done_marks_entry
      (demoSession (demoFiles []) ["1\t[ ] - milk".toList, "2\t[ ] - eggs".toList] 3)
      "done 1".toList "1".toList 1 "1\t".toList " ] - milk".toList
      (by decide) (by decide) (by decide) (by decide) (by decide) (by decide) (by decide)
  exact ⟨s1, h1, by rw [h5]; decide⟩

/-- C4, failing input: with two entries, `done 3` has the zero-based index 2, which is
outside `[0, 2)`, yet it passes the test `index <= entries.size()`; `entries.at(2)` then
throws `std::out_of_range` and the program ends instead of rejecting the command. -/
theorem session_done_index_equal_count_terminates :
    sessionStep
        (demoSession (demoFiles "1\t[ ] - milk\n2\t[ ] - eggs\n".toList)
          ["1\t[ ] - milk".toList, "2\t[ ] - eggs".toList] 3)
        "done 3".toList
      = Step.terminated := by
  rfl

/-! ## Facts about serialisation and reloading -/

theorem terminate_eq (e : Str) :
    (if endsWith e '\n' = true then e else e ++ ['\n']) = stripTerminator e ++ ['\n'] := by
  unfold stripTerminator
  by_cases h : endsWith e '\n' = true
  · simp only [h, if_true]
    have hl : e.getLast? = some '\n' := by simpa [endsWith] using h
    exact (List.dropLast_append_getLast? '\n' (by simp [hl])).symm
  · simp [h]

theorem serialize_foldl (acc : Str) (es : List Str) :
    es.foldl (fun out e => if endsWith e '\n' then out ++ e else out ++ (e ++ ['\n'])) acc
      = acc ++ serializeEntries es := by
  unfold serializeEntries
  induction es generalizing acc with
  | nil => simp
  | cons e es ih =>
    simp only [List.foldl_cons]
    rw [ih, ih (if endsWith e '\n' = true then [] ++ e else [] ++ (e ++ ['\n']))]
    by_cases h : endsWith e '\n' = true <;> simp [h]

theorem serializeEntries_cons (e : Str) (es : List Str) :
    serializeEntries (e :: es) = stripTerminator e ++ ['\n'] ++ serializeEntries es := by
  rw [← terminate_eq]
  conv_lhs => unfold serializeEntries
  simp only [List.foldl_cons]
  rw [serialize_foldl]
  by_cases h : endsWith e '\n' = true <;> simp [h]

theorem serializeEntries_nil : serializeEntries [] = [] := rfl

theorem serializeEntries_append (es fs : List Str) :
    serializeEntries (es ++ fs) = serializeEntries es ++ serializeEntries fs := by
  induction es with
  | nil => simp [serializeEntries_nil]
  | cons e es ih => simp [serializeEntries_cons, ih]

theorem getLinesLoop_cons (cur : Str) (c : Char) (cs : Str) :
    getLinesLoop cur (c :: cs)
      = if c = '\n' then cur :: getLinesLoop [] cs else getLinesLoop (cur ++ [c]) cs := by
  simp [getLinesLoop]

theorem getLinesLoop_line (cur body rest : Str) (h : '\n' ∉ body) :
    getLinesLoop cur (body ++ '\n' :: rest) = (cur ++ body) :: getLinesLoop [] rest := by
  induction body generalizing cur with
  | nil => simp [getLinesLoop]
  | cons c cs ih =>
    have hc : ¬ c = '\n' := fun e => h (by simp [e])
    have hcs : '\n' ∉ cs := fun e => h (by simp [e])
    rw [List.cons_append, getLinesLoop_cons, if_neg hc, ih (cur ++ [c]) hcs]
    simp

/-- Reading back a serialised entry sequence gives the entries without terminators. -/
theorem readLines_serializeEntries (es : List Str)
    (h : ∀ e ∈ es, '\n' ∉ stripTerminator e) :
    readLines (serializeEntries es) = es.map stripTerminator := by
  unfold readLines
  induction es with
  | nil => simp [serializeEntries_nil, getLinesLoop]
  | cons e es ih =>
    rw [serializeEntries_cons, List.append_assoc, List.singleton_append,
      getLinesLoop_line [] _ _ (h e (by simp)), ih (fun x hx => h x (by simp [hx]))]
    simp

theorem getLinesLoop_no_newline (cur rest : Str) (hcur : '\n' ∉ cur) :
    ∀ l ∈ getLinesLoop cur rest, '\n' ∉ l := by
  induction rest generalizing cur with
  | nil =>
    intro l hl
    by_cases hc : cur.isEmpty = true
    · simp [getLinesLoop, hc] at hl
    · simp [getLinesLoop, hc] at hl
      rw [hl]; exact hcur
  | cons c cs ih =>
    intro l hl
    by_cases hc : c = '\n'
    · simp only [getLinesLoop, hc, if_true, List.mem_cons] at hl
      rcases hl with rfl | hl
      · exact hcur
      · exact ih [] (by simp) l hl
    · simp only [getLinesLoop, hc, if_false] at hl
      have hc2 : ¬ '\n' = c := fun e => hc e.symm
      exact ih (cur ++ [c]) (by simp [hcur, hc2]) l hl

theorem stripTerminator_of_no_newline (l : Str) (h : '\n' ∉ l) : stripTerminator l = l := by
  unfold stripTerminator
  have : endsWith l '\n' = false := by
    cases hb : endsWith l '\n' with
    | false => rfl
    | true =>
      have hl : l.getLast? = some '\n' := by simpa [endsWith] using hb
      exact absurd (List.mem_of_getLast?_eq_some hl) h
  simp [this]

theorem serialize_getLinesLoop (cur rest : Str) (hcur : '\n' ∉ cur)
    (h : (rest = [] ∧ cur = []) ∨ endsWith rest '\n' = true) :
    serializeEntries (getLinesLoop cur rest) = cur ++ rest := by
  induction rest generalizing cur with
  | nil =>
    rcases h with ⟨_, rfl⟩ | h
    · simp [getLinesLoop, serializeEntries_nil]
    · simp [endsWith] at h
  | cons c cs ih =>
    have hend : endsWith (c :: cs) '\n' = true := by
      rcases h with ⟨h, _⟩ | h
      · cases h
      · exact h
    by_cases hc : c = '\n'
    · simp only [getLinesLoop, hc, if_true]
      rw [serializeEntries_cons, stripTerminator_of_no_newline cur hcur]
      have hcs : (cs = [] ∧ ([] : Str) = []) ∨ endsWith cs '\n' = true := by
        cases cs with
        | nil => exact Or.inl ⟨rfl, rfl⟩
        | cons d ds =>
          right
          simpa [endsWith] using hend
      rw [ih [] (by simp) hcs]
      simp
    · simp only [getLinesLoop, hc, if_false]
      have hc2 : ¬ '\n' = c := fun e => hc e.symm
      have hcs : (cs = [] ∧ cur ++ [c] = []) ∨ endsWith cs '\n' = true := by
        cases cs with
        | nil => simp [endsWith, hc] at hend
        | cons d ds =>
          right
          simpa [endsWith] using hend
      rw [ih (cur ++ [c]) (by simp [hcur, hc2]) hcs]
      simp

/-- Serialising the lines of a content that is empty or ends with a line feed gives the
content back. -/
theorem serializeEntries_readLines (content : Str)
    (h : content = [] ∨ endsWith content '\n' = true) :
    serializeEntries (readLines content) = content := by
  unfold readLines
  rw [serialize_getLinesLoop [] content (by simp) (by
    rcases h with h | h
    · exact Or.inl ⟨h, rfl⟩
    · exact Or.inr h)]
  simp

/-! ## Invariants of the session loop -/

theorem noBreak_iff_dropLast (x : Str) : '\n' ∉ stripTerminator x ↔ '\n' ∉ x.dropLast := by
  unfold stripTerminator
  by_cases h : endsWith x '\n' = true
  · simp [h]
  · simp only [h, if_false, Bool.false_eq_true]
    constructor
    · intro hx hd
      exact hx (List.mem_of_mem_dropLast hd)
    · intro hd hx
      rcases List.eq_nil_or_concat x with rfl | ⟨l, b, rfl⟩
      · simp at hx
      · simp only [List.concat_eq_append] at h hd hx
        have hb : ¬ b = '\n' := by
          intro e
          apply h
          simp [endsWith, e]
        simp only [List.dropLast_concat] at hd
        simp only [List.mem_append, List.mem_singleton] at hx
        rcases hx with hx | hx
        · exact hd hx
        · exact hb hx.symm

theorem mem_dropLast_cons (a x : Char) (l : Str) (h : x ∈ l.dropLast) :
    x ∈ (a :: l).dropLast := by
  cases l with
  | nil => simp at h
  | cons b t => simp only [List.dropLast_cons₂, List.mem_cons]; exact Or.inr h

theorem mem_dropLast_drop (x : Char) (n : Nat) (l : Str) (h : x ∈ (l.drop n).dropLast) :
    x ∈ l.dropLast := by
  induction n generalizing l with
  | zero => simpa using h
  | succ n ih =>
    cases l with
    | nil => simp at h
    | cons a t =>
      simp only [List.drop_succ_cons] at h
      exact mem_dropLast_cons a x t (ih t h)

theorem mem_dropLast_of_cons (a x : Char) (l : Str) (h : x ∈ (a :: l).dropLast) :
    x = a ∨ x ∈ l.dropLast := by
  cases l with
  | nil => simp at h
  | cons b t => simpa using h

theorem noBreak_mark (pre post : Str) (h : '\n' ∉ stripTerminator (pre ++ '[' :: post)) :
    '\n' ∉ stripTerminator (pre ++ "[X]".toList ++ post.drop 2) := by
  rw [noBreak_iff_dropLast] at h ⊢
  rw [List.dropLast_append_of_ne_nil _ (by simp)] at h
  have hpre : '\n' ∉ pre := fun e => h (by simp [e])
  have hpost : '\n' ∉ post.dropLast := by
    intro e
    exact h (List.mem_append_right _ (mem_dropLast_cons '[' '\n' post e))
  intro hm
  rw [List.append_assoc, List.dropLast_append_of_ne_nil _ (by simp)] at hm
  rcases List.mem_append.1 hm with hm | hm
  · exact hpre hm
  · have e1 : "[X]".toList ++ post.drop 2 = '[' :: 'X' :: ']' :: post.drop 2 := rfl
    rw [e1] at hm
    rcases mem_dropLast_of_cons _ _ _ hm with hm | hm
    · exact absurd hm (by decide)
    · rcases mem_dropLast_of_cons _ _ _ hm with hm | hm
      · exact absurd hm (by decide)
      · rcases mem_dropLast_of_cons _ _ _ hm with hm | hm
        · exact absurd hm (by decide)
        · exact hpost (mem_dropLast_drop _ _ _ hm)

theorem markDone_some (entries es : List Str) (index : Nat)
    (h : markDone entries index = some es) :
    ∃ pre post, entries[index]? = some (pre ++ '[' :: post) ∧ '[' ∉ pre
      ∧ es = entries.set index (pre ++ "[X]".toList ++ post.drop 2) := by
  unfold markDone at h
  split at h
  · cases h
  · rename_i entry he
    split at h
    · cases h
    · rename_i pos hpos
      obtain ⟨h1, h2, _⟩ := findFirstOf_eq_some entry '[' pos hpos
      have hlen : (entry.take pos).length = pos := by
        have := (findFirstOf_eq_some entry '[' pos hpos).2.2
        simp; omega
      refine ⟨entry.take pos, entry.drop (pos + 1), by rw [he, ← h1], h2, ?_⟩
      have hr := replace_at_bracket (entry.take pos) (entry.drop (pos + 1))
      rw [← h1, hlen] at hr
      rw [hr] at h
      simpa using h.symm

theorem markDone_noBreak (entries es : List Str) (index : Nat)
    (h : markDone entries index = some es)
    (hP : ∀ e ∈ entries, '\n' ∉ stripTerminator e) :
    ∀ e ∈ es, '\n' ∉ stripTerminator e := by
  obtain ⟨pre, post, he, _, rfl⟩ := markDone_some entries es index h
  intro e hmem
  rcases List.mem_or_eq_of_mem_set hmem with hm | rfl
  · exact hP e hm
  · exact noBreak_mark pre post (hP _ (List.getElem?_mem he))

theorem formatEntry_terminated (count : Nat) (d : Str) :
    stripTerminator (formatEntry count d) ++ ['\n'] = formatEntry count d
      ∧ stripTerminator (formatEntry count d) = toDecimal count ++ "\t[ ] - ".toList ++ d := by
  have hend : endsWith (formatEntry count d) '\n' = true := by
    have e1 : formatEntry count d = (toDecimal count ++ "\t[ ] - ".toList ++ d) ++ ['\n'] := rfl
    rw [e1]
    unfold endsWith
    rw [List.getLast?_concat]
    simp
  have h2 : stripTerminator (formatEntry count d)
      = toDecimal count ++ "\t[ ] - ".toList ++ d := by
    unfold stripTerminator
    rw [if_pos hend]
    unfold formatEntry
    exact List.dropLast_concat
  refine ⟨?_, h2⟩
  rw [h2]; rfl

theorem sessionStep_fileInSync (s s1 : Session) (line : Str) (d : Option Diagnostic)
    (h : sessionStep s line = Step.next s1 d) (hs : FileInSync s) : FileInSync s1 := by
  unfold FileInSync at hs ⊢
  rcases sessionStep_next_cases s s1 line d h with
    ⟨_, w, hw, rfl⟩ | rfl | ⟨es, w, hw, rfl, _⟩
  · rw [WriteToFile_of_file _ _ _ _ _ hs] at hw
    cases hw
    simp only [storeFile_file_same, if_true]
    rw [serializeEntries_append, serializeEntries_cons, serializeEntries_nil,
      (formatEntry_terminated _ _).1]
    simp
  · exact hs
  · rw [WriteToFile_of_file _ _ _ _ _ hs] at hw
    cases hw
    simp [storeFile_file_same]

theorem sessionAfter_fileInSync (s s1 : Session) (lines : List Str)
    (h : sessionAfter s lines = some s1) (hs : FileInSync s) : FileInSync s1 := by
  induction lines generalizing s with
  | nil => simp [sessionAfter] at h; subst h; exact hs
  | cons l ls ih =>
    unfold sessionAfter at h
    cases hstep : sessionStep s l with
    | next s2 d =>
      rw [hstep] at h
      exact ih s2 h (sessionStep_fileInSync s s2 l d hstep hs)
    | close _ => rw [hstep] at h; cases h
    | exit _ => rw [hstep] at h; cases h
    | terminated => rw [hstep] at h; cases h
    | undefined => rw [hstep] at h; cases h

theorem digitChar_isDigit (k : Nat) (h : k < 10) : (Nat.digitChar k).isDigit = true := by
  revert k
  decide

theorem toDigitsCore_isDigit (fuel n : Nat) (acc : List Char)
    (hacc : ∀ c ∈ acc, c.isDigit = true) :
    ∀ c ∈ Nat.toDigitsCore 10 fuel n acc, c.isDigit = true := by
  induction fuel generalizing n acc with
  | zero => simpa [Nat.toDigitsCore] using hacc
  | succ fuel ih =>
    have hd : (Nat.digitChar (n % 10)).isDigit = true :=
      digitChar_isDigit _ (Nat.mod_lt _ (by decide))
    have hacc2 : ∀ c ∈ Nat.digitChar (n % 10) :: acc, c.isDigit = true := by
      intro c hc
      rcases List.mem_cons.1 hc with rfl | hc
      · exact hd
      · exact hacc c hc
    unfold Nat.toDigitsCore
    simp only
    split
    · exact hacc2
    · exact ih _ _ hacc2

/-- Every character of a decimal rendering is a decimal digit. -/
theorem toDecimal_isDigit (n : Nat) : ∀ c ∈ toDecimal n, c.isDigit = true :=
  toDigitsCore_isDigit _ _ [] (by simp)

theorem getNext_snd_subset (line : Str) (c : Char) (h : c ∈ (getNext line).2) : c ∈ line := by
  unfold getNext at h
  split at h
  · simp at h
  · exact List.mem_of_mem_drop h

theorem formatEntry_noBreak (count : Nat) (d : Str) (hd : '\n' ∉ d) :
    '\n' ∉ stripTerminator (formatEntry count d) := by
  rw [(formatEntry_terminated count d).2]
  intro hm
  simp only [List.mem_append] at hm
  rcases hm with (hm | hm) | hm
  · have := toDecimal_isDigit count _ hm
    exact absurd this (by decide)
  · exact absurd hm (by decide)
  · exact hd hm

theorem sessionStep_noBreak (s s1 : Session) (line : Str) (d : Option Diagnostic)
    (h : sessionStep s line = Step.next s1 d) (hline : '\n' ∉ line)
    (hP : ∀ e ∈ s.entries, '\n' ∉ stripTerminator e) :
    ∀ e ∈ s1.entries, '\n' ∉ stripTerminator e := by
  rcases sessionStep_next_cases s s1 line d h with
    ⟨_, w, _, rfl⟩ | rfl | ⟨es, w, _, rfl, _, ⟨rfl, _⟩ | ⟨_, idx, hm⟩⟩
  · intro e he
    simp only [List.mem_append, List.mem_singleton] at he
    rcases he with he | rfl
    · exact hP e he
    · exact formatEntry_noBreak _ _ (fun hc => hline (getNext_snd_subset line _ hc))
  · exact hP
  · exact hP
  · exact markDone_noBreak _ _ _ hm hP

theorem sessionAfter_noBreak (s s1 : Session) (lines : List Str)
    (h : sessionAfter s lines = some s1) (hlines : ∀ l ∈ lines, '\n' ∉ l)
    (hP : ∀ e ∈ s.entries, '\n' ∉ stripTerminator e) :
    ∀ e ∈ s1.entries, '\n' ∉ stripTerminator e := by
  induction lines generalizing s with
  | nil => simp [sessionAfter] at h; subst h; exact hP
  | cons l ls ih =>
    unfold sessionAfter at h
    cases hstep : sessionStep s l with
    | next s2 d =>
      rw [hstep] at h
      exact ih s2 h (fun x hx => hlines x (by simp [hx]))
        (sessionStep_noBreak s s2 l d hstep (hlines l (by simp)) hP)
    | close _ => rw [hstep] at h; cases h
    | exit _ => rw [hstep] at h; cases h
    | terminated => rw [hstep] at h; cases h
    | undefined => rw [hstep] at h; cases h

theorem readLines_noBreak (content : Str) :
    ∀ e ∈ readLines content, '\n' ∉ stripTerminator e := by
  intro e he
  have h := getLinesLoop_no_newline [] content (by simp) e he
  rw [stripTerminator_of_no_newline e h]
  exact h

theorem readLines_strip (content : Str) :
    (readLines content).map stripTerminator = readLines content := by
  have h : ∀ e ∈ readLines content, stripTerminator e = e := fun e he =>
    stripTerminator_of_no_newline e (getLinesLoop_no_newline [] content (by simp) e he)
  calc (readLines content).map stripTerminator
      = (readLines content).map id := List.map_congr_left h
    _ = readLines content := List.map_id _

theorem reloadedLines_eq (s : Session) (hs : FileInSync s)
    (hP : ∀ e ∈ s.entries, '\n' ∉ stripTerminator e) :
    GetLinesFromFile s.files s.currentTodoList [] = (true, s.entries.map stripTerminator) := by
  unfold GetLinesFromFile
  rw [pathExists_of_file _ _ _ hs, hs]
  simp [readLines_serializeEntries s.entries hP]

theorem menuOpen_fileInSync (m : Menu) (arg : Str) (s0 : Session)
    (hopen : menuOpen m arg = Except.ok s0)
    (hfile : (m.files.file s0.currentTodoList).isSome = true)
    (hcontent : ∀ content, m.files.file s0.currentTodoList = some content →
      content = [] ∨ endsWith content '\n' = true) :
    FileInSync s0 ∧ (∀ e ∈ s0.entries, '\n' ∉ stripTerminator e)
      ∧ GetLinesFromFile m.files s0.currentTodoList [] = (true, s0.entries)
      ∧ s0.entries.map stripTerminator = s0.entries := by
  obtain ⟨hex, rfl⟩ := menuOpen_ok m arg s0 hopen
  simp only at hfile hcontent
  obtain ⟨content, hf⟩ := Option.isSome_iff_exists.1 hfile
  simp only [hf, Option.getD_some]
  refine ⟨?_, readLines_noBreak content, ?_, readLines_strip content⟩
  · show m.files.file _ = some (serializeEntries (readLines content))
    rw [serializeEntries_readLines content (hcontent content hf)]
    exact hf
  · simp [GetLinesFromFile, hf, hex]

theorem serializeEntries_eq_flatten (es : List Str) :
    serializeEntries es = (es.map (fun e => stripTerminator e ++ ['\n'])).flatten := by
  induction es with
  | nil => rfl
  | cons e es ih => rw [serializeEntries_cons, ih]; simp

/-! ## C5: append round trip -/

/-- C5, as stated, fails: when the list file holds "1<TAB>[ ] - old" without a final line
feed, `open` followed by `add milk` appends the new entry directly after the last
character, and reading the file again yields the single line
"1<TAB>[ ] - old2<TAB>[ ] - milk", not the two in-memory entries. -/
theorem add_reload_counterexample :
    menuOpen ⟨demoFiles "1\t[ ] - old".toList, []⟩ "a".toList
        = Except.ok (demoSession (demoFiles "1\t[ ] - old".toList) ["1\t[ ] - old".toList] 2)
      ∧ ((sessionStep
            (demoSession (demoFiles "1\t[ ] - old".toList) ["1\t[ ] - old".toList] 2)
            "add milk".toList).continued.map
          (fun s1 => (s1.entries.map stripTerminator, reloadedLines s1)))
        = some (["1\t[ ] - old".toList, "2\t[ ] - milk".toList],
                ["1\t[ ] - old2\t[ ] - milk".toList]) := by
  exact ⟨rfl, by decide⟩

/-- C5 (amended): for every existing list file content that is empty or ends with a line
feed, after `open` of that list, any input lines (free of line feeds) that kept the
session running, and then an accepted session `add` whose non-empty description has no
line feed, reading the list file again line by line yields exactly the in-memory entry
sequence, each entry taken without its trailing terminator: the entries held before,
followed by the newly added entry; directly after `open` the entries held before are the
loaded lines. -/
theorem add_reload_roundtrip (m : Menu) (openArg : Str) (s0 s : Session)
    (cmds : List Str) (line d : Str)
    (hopen : menuOpen m openArg = Except.ok s0)
    (hfile : (m.files.file s0.currentTodoList).isSome = true)
    (hcontent : ∀ content, m.files.file s0.currentTodoList = some content →
      content = [] ∨ endsWith content '\n' = true)
    (hcmds : ∀ l ∈ cmds, '\n' ∉ l)
    (hrun : sessionAfter s0 cmds = some s)
    (hline : getNext line = ("add".toList, d)) (hd : d ≠ []) (hnl : '\n' ∉ d) :
    ∃ s1, sessionStep s line = Step.next s1 none
      ∧ GetLinesFromFile s1.files s1.currentTodoList []
          = (true, s1.entries.map stripTerminator)
      ∧ s1.entries.map stripTerminator
          = s.entries.map stripTerminator ++ [toDecimal s.count ++ "\t[ ] - ".toList ++ d]
      ∧ GetLinesFromFile m.files s0.currentTodoList [] = (true, s0.entries)
      ∧ s0.entries.map stripTerminator = s0.entries := by
  obtain ⟨hsync0, hclean0, hload, hstrip⟩ :=
    menuOpen_fileInSync m openArg s0 hopen hfile hcontent
  have hsync := sessionAfter_fileInSync s0 s cmds hrun hsync0
  have hclean := sessionAfter_noBreak s0 s cmds hrun hcmds hclean0
  have hacc : isAcceptedAdd line = true := by
    cases d with
    | nil => exact absurd rfl hd
    | cons a t => simp [isAcceptedAdd, hline]
  have hstep := sessionStep_acceptedAdd s line hacc
  rw [hline, WriteToFile_of_file _ _ _ _ _ hsync] at hstep
  simp only at hstep
  have hsync1 := sessionStep_fileInSync s _ line none hstep hsync
  have hclean1 : ∀ e ∈ s.entries ++ [formatEntry s.count d], '\n' ∉ stripTerminator e := by
    intro e he
    simp only [List.mem_append, List.mem_singleton] at he
    rcases he with he | rfl
    · exact hclean e he
    · exact formatEntry_noBreak _ _ hnl
  refine ⟨_, hstep, reloadedLines_eq _ hsync1 hclean1, ?_, hload, hstrip⟩
  simp only [List.map_append, List.map_cons, List.map_nil]
  rw [(formatEntry_terminated s.count d).2]

/-- C5, instance: on the empty list file, after `add milk`, the command `add eggs` leaves a
file that reloads as the two lines "1<TAB>[ ] - milk" and "2<TAB>[ ] - eggs". -/
theorem add_reload_roundtrip_witness :
    ∃ s1, sessionStep
          (demoSession (storeFile (demoFiles []) demoPath "1\t[ ] - milk\n".toList)
            ["1\t[ ] - milk\n".toList] 2)
          "add eggs".toList = Step.next s1 none
      ∧ GetLinesFromFile s1.files s1.currentTodoList []
          = (true, ["1\t[ ] - milk".toList, "2\t[ ] - eggs".toList]) := by
  obtain ⟨s1, h1, h2, h3, _⟩ :=
    add_reload_roundtrip ⟨demoFiles [], []⟩ "a".toList (demoSession (demoFiles []) [] 1)
      (demoSession (storeFile (demoFiles []) demoPath "1\t[ ] - milk\n".toList)
        ["1\t[ ] - milk\n".toList] 2)
      ["add milk".toList] "add eggs".toList "eggs".toList rfl (by decide)
      (by intro content hc; left; exact (Option.some.inj hc).symm)
      (by decide) rfl rfl (by decide) (by decide)
  refine ⟨s1, h1, ?_⟩
  rw [h2, h3]
  decide

/-! ## C6: full-rewrite round trip -/

/-- C6: after every successful `done` (index in range, entry with an opening bracket) on
a session whose list file exists as a regular file, the list file holds exactly the
concatenation of all in-memory entries in order, each terminated by exactly one line
feed, whether or not the entry carried a terminator in memory; and when no entry has an
interior line feed, reading the file again line by line yields the in-memory entry
sequence with terminators stripped. -/
theorem done_rewrite_roundtrip (s : Session) (line arg : Str) (i : Nat) (pre post : Str)
    (hfile : (s.files.file s.currentTodoList).isSome = true)
    (hline : getNext line = ("done".toList, arg))
    (hi : extractInt arg = some (i : Int)) (h1 : 1 ≤ i)
    (he : s.entries[i - 1]? = some (pre ++ '[' :: post)) (hpre : '[' ∉ pre) :
    ∃ s1, sessionStep s line = Step.next s1 none
      ∧ s1.files.file s1.currentTodoList
          = some ((s1.entries.map (fun e => stripTerminator e ++ ['\n'])).flatten)
      ∧ ((∀ e ∈ s.entries, '\n' ∉ stripTerminator e) →
          GetLinesFromFile s1.files s1.currentTodoList []
            = (true, s1.entries.map stripTerminator)) := by
  have hd1 : ¬ ("done".toList = "close".toList) := by decide
  have hd2 : ¬ ("done".toList = "add".toList) := by decide
  have hstep : sessionStep s line = sessionDone s arg := by
    simp [sessionStep, hline, hd1, hd2]
  have hlt : i - 1 < s.entries.length := by
    rcases List.getElem?_eq_some_iff.1 he with ⟨h, _⟩
    exact h
  have hmark := markDone_at_bracket s.entries (i - 1) pre post he hpre
  obtain ⟨old, hold⟩ := Option.isSome_iff_exists.1 hfile
  rw [sessionDone_in_range s arg i hi h1 (by omega), hmark] at hstep
  simp only [WriteToFile_of_file _ _ _ _ _ hold] at hstep
  have hsync : FileInSync
      ⟨storeFile s.files s.currentTodoList
          (serializeEntries (s.entries.set (i - 1) (pre ++ "[X]".toList ++ post.drop 2))),
        s.currentTodoList, s.entries.set (i - 1) (pre ++ "[X]".toList ++ post.drop 2),
        s.count⟩ := by
    show (storeFile _ _ _).file _ = _
    rw [storeFile_file_same]
  refine ⟨_, hstep, ?_, ?_⟩
  · rw [← serializeEntries_eq_flatten]
    exact hsync
  · intro hclean
    exact reloadedLines_eq _ hsync (markDone_noBreak _ _ _ hmark hclean)

/-- C6, instance: `done 1` on the loaded entry "1<TAB>[ ] - milk" and the added entry
"2<TAB>[ ] - eggs<LF>" writes "1<TAB>[X] - milk<LF>2<TAB>[ ] - eggs<LF>". -/
theorem done_rewrite_roundtrip_witness :
    ∃ s1, sessionStep
          (demoSession (demoFiles "1\t[ ] - milk\n2\t[ ] - eggs\n".toList)
            ["1\t[ ] - milk".toList, "2\t[ ] - eggs\n".toList] 3)
          "done 1".toList = Step.next s1 none
      ∧ s1.files.file s1.currentTodoList
          = some ((s1.entries.map (fun e => stripTerminator e ++ ['\n'])).flatten)
      ∧ GetLinesFromFile s1.files s1.currentTodoList []
          = (true, s1.entries.map stripTerminator) := by
  obtain ⟨s1, h1, h2, h3⟩ :=
    done_rewrite_roundtrip
      (demoSession (demoFiles "1\t[ ] - milk\n2\t[ ] - eggs\n".toList)
        ["1\t[ ] - milk".toList, "2\t[ ] - eggs\n".toList] 3)
      "done 1".toList "1".toList 1 "1\t".toList " ] - milk".toList
      (by decide) (by decide) (by decide) (by decide) (by decide) (by decide)
  exact ⟨s1, h1, h2, h3 (by decide)⟩

/-! ## C7: a rejected `done` and the list file -/

/-- C7, as stated, fails: when the opened two-entry list file lacks the final line feed,
`done 5` is rejected as out of range, but the file is rewritten from the in-memory
entries and gains a final line feed. -/
theorem done_reject_counterexample :
    menuOpen ⟨demoFiles "1\t[ ] - milk\n2\t[ ] - eggs".toList, []⟩ "a".toList
        = Except.ok (demoSession (demoFiles "1\t[ ] - milk\n2\t[ ] - eggs".toList)
            ["1\t[ ] - milk".toList, "2\t[ ] - eggs".toList] 3)
      ∧ ∃ s1, sessionStep
            (demoSession (demoFiles "1\t[ ] - milk\n2\t[ ] - eggs".toList)
              ["1\t[ ] - milk".toList, "2\t[ ] - eggs".toList] 3)
            "done 5".toList = Step.next s1 (some (Diagnostic.noEntry 4))
          ∧ s1.files.file demoPath = some "1\t[ ] - milk\n2\t[ ] - eggs\n".toList
          ∧ s1.files.file demoPath
              ≠ (demoFiles "1\t[ ] - milk\n2\t[ ] - eggs".toList).file demoPath := by
  exact ⟨rfl, _, rfl, by decide, by decide⟩

/-- Writing to a path at which a directory stands fails and changes nothing. -/
theorem WriteToFile_directory (files : FileSystem) (p : Path) (buffer : Str) (append : Bool)
    (hex : pathExists files p = true) (hnone : files.file p = none) :
    WriteToFile files p buffer append = some (false, files) := by
  unfold WriteToFile
  rw [CreateFile_of_exists files p hex]
  simp only [hnone]

theorem sessionStep_directory (s s1 : Session) (line : Str) (d : Option Diagnostic)
    (h : sessionStep s line = Step.next s1 d)
    (hex : pathExists s.files s.currentTodoList = true)
    (hnone : s.files.file s.currentTodoList = none) :
    s1.files = s.files ∧ s1.currentTodoList = s.currentTodoList := by
  rcases sessionStep_next_cases s s1 line d h with
    ⟨_, w, hw, rfl⟩ | rfl | ⟨es, w, hw, rfl, _⟩
  · rw [WriteToFile_directory _ _ _ _ hex hnone] at hw
    cases hw
    exact ⟨rfl, rfl⟩
  · exact ⟨rfl, rfl⟩
  · rw [WriteToFile_directory _ _ _ _ hex hnone] at hw
    cases hw
    exact ⟨rfl, rfl⟩

theorem sessionAfter_directory (s s1 : Session) (lines : List Str)
    (h : sessionAfter s lines = some s1)
    (hex : pathExists s.files s.currentTodoList = true)
    (hnone : s.files.file s.currentTodoList = none) :
    s1.files = s.files ∧ s1.currentTodoList = s.currentTodoList := by
  induction lines generalizing s with
  | nil => simp [sessionAfter] at h; subst h; exact ⟨rfl, rfl⟩
  | cons l ls ih =>
    unfold sessionAfter at h
    cases hstep : sessionStep s l with
    | next s2 d =>
      rw [hstep] at h
      obtain ⟨hf, hp⟩ := sessionStep_directory s s2 l d hstep hex hnone
      obtain ⟨gf, gp⟩ := ih s2 h (by rw [hf, hp]; exact hex) (by rw [hf, hp]; exact hnone)
      exact ⟨gf.trans hf, gp.trans hp⟩
    | close _ => rw [hstep] at h; cases h
    | exit _ => rw [hstep] at h; cases h
    | terminated => rw [hstep] at h; cases h
    | undefined => rw [hstep] at h; cases h

theorem storeFile_same_content (files : FileSystem) (p : Path) (c : Str)
    (h : files.file p = some c) : storeFile files p c = files := by
  unfold storeFile
  have hfun : (fun q => if q = p then some c else files.file q) = files.file := by
    funext q
    by_cases hq : q = p
    · rw [if_pos hq, hq]; exact h.symm
    · rw [if_neg hq]
  rw [hfun]

/-- C7 (amended): for every opened list file whose content is empty or ends with a line
feed, whenever the session command `done` rejects its index as out of range, at any
point of the session, every file on disk, the list file included, has the same content
after the command as before it. -/
theorem done_reject_keeps_file (m : Menu) (openArg : Str) (s0 s s1 : Session)
    (cmds : List Str) (line arg : Str) (k : Int)
    (hopen : menuOpen m openArg = Except.ok s0)
    (hcontent : ∀ content, m.files.file s0.currentTodoList = some content →
      content = [] ∨ endsWith content '\n' = true)
    (hrun : sessionAfter s0 cmds = some s)
    (hline : getNext line = ("done".toList, arg))
    (hrej : sessionStep s line = Step.next s1 (some (Diagnostic.noEntry k))) :
    (∀ q, s1.files.file q = s.files.file q) ∧ s1.entries = s.entries
      ∧ s1.files = s.files := by
  have hkeep : ∀ w, WriteToFile s.files s.currentTodoList (serializeEntries s.entries) false
      = some w → w.2 = s.files := by
    intro w hw
    cases hfile : m.files.file s0.currentTodoList with
    | some content =>
      obtain ⟨hsync0, _⟩ := menuOpen_fileInSync m openArg s0 hopen
        (by rw [hfile]; rfl) hcontent
      have hsync := sessionAfter_fileInSync s0 s cmds hrun hsync0
      rw [WriteToFile_of_file _ _ _ _ _ hsync] at hw
      cases hw
      exact storeFile_same_content _ _ _ hsync
    | none =>
      obtain ⟨hex, hs0⟩ := menuOpen_ok m openArg s0 hopen
      have hex0 : pathExists s0.files s0.currentTodoList = true := by rw [hs0]; exact hex
      have hnone0 : s0.files.file s0.currentTodoList = none := by
        rw [hs0] at hfile ⊢
        exact hfile
      obtain ⟨hf, hp⟩ := sessionAfter_directory s0 s cmds hrun hex0 hnone0
      rw [WriteToFile_directory s.files s.currentTodoList _ _ (by rw [hf, hp]; exact hex0)
        (by rw [hf, hp]; exact hnone0)] at hw
      cases hw
      rfl
  rcases sessionStep_next_cases s s1 line _ hrej with
    ⟨hacc, _⟩ | rfl | ⟨es, w, hw, rfl, _, ⟨rfl, _⟩ | ⟨hnone, _⟩⟩
  · have : (getNext line).1 = "add".toList := by
      simp only [isAcceptedAdd, Bool.and_eq_true, decide_eq_true_eq] at hacc
      exact hacc.1
    rw [hline] at this
    have hne : ¬ ("done".toList = "add".toList) := by decide
    exact absurd this hne
  · exact ⟨fun _ => rfl, rfl, rfl⟩
  · have hfiles := hkeep w hw
    exact ⟨fun q => by rw [hfiles], rfl, hfiles⟩
  · cases hnone

/-- C7, instance: `done 5` on the two-entry list whose file ends with a line feed is
rejected and leaves the file as it was. -/
theorem done_reject_keeps_file_witness :
    ∃ s1, sessionStep
          (demoSession (demoFiles "1\t[ ] - milk\n2\t[ ] - eggs\n".toList)
            ["1\t[ ] - milk".toList, "2\t[ ] - eggs".toList] 3)
          "done 5".toList = Step.next s1 (some (Diagnostic.noEntry 4))
      ∧ s1.files.file demoPath = some "1\t[ ] - milk\n2\t[ ] - eggs\n".toList := by
  refine ⟨_, rfl, ?_⟩
  rw [(done_reject_keeps_file ⟨demoFiles "1\t[ ] - milk\n2\t[ ] - eggs\n".toList, []⟩
      "a".toList
      (demoSession (demoFiles "1\t[ ] - milk\n2\t[ ] - eggs\n".toList)
        ["1\t[ ] - milk".toList, "2\t[ ] - eggs".toList] 3)
      (demoSession (demoFiles "1\t[ ] - milk\n2\t[ ] - eggs\n".toList)
        ["1\t[ ] - milk".toList, "2\t[ ] - eggs".toList] 3)
      _ [] "done 5".toList "5".toList 4 rfl
      (by intro content hc; right; rw [← Option.some.inj hc]; decide)
      rfl (by decide) rfl).1 demoPath]
  decide

/-! ## Facts about the menu loop -/

theorem derivedPath_dirPath (name : Str) :
    derivedPath dirPath name = "todo_lists/".toList ++ name ++ ".txt".toList := by
  have h : (!endsWith dirPath '/' && endsWith dirPath (Char.ofNat 92)) = false := by decide
  unfold derivedPath
  rw [h]
  rfl

theorem parentPath_length_le (d : Path) : (parentPath d).length ≤ d.length := by
  have h1 := (List.dropWhile_sublist (fun c => c != '/') (l := d.reverse)).length_le
  have h2 := (List.dropWhile_sublist (fun c => c == '/')
    (l := d.reverse.dropWhile (fun c => c != '/'))).length_le
  unfold parentPath
  simp only
  split
  · rename_i hcond
    simp only [Bool.and_eq_true, Bool.not_eq_true', List.isEmpty_eq_true] at hcond
    have hne : (d.reverse.dropWhile (fun c => c != '/')).length ≠ 0 := by
      intro h0
      have := List.length_eq_zero.1 h0
      rw [this] at hcond
      simp at hcond
    simp only [List.length_singleton, List.length_reverse] at *
    omega
  · simp only [List.length_reverse] at *
    omega

theorem ancestorChain_length_le (fuel : Nat) (d x : Path)
    (h : x ∈ ancestorChain fuel d) : x.length ≤ d.length := by
  induction fuel generalizing d with
  | zero => simp [ancestorChain] at h
  | succ fuel ih =>
    unfold ancestorChain at h
    split at h
    · simp at h
    · split at h
      · simp only [List.mem_singleton] at h
        rw [h]
      · rcases List.mem_cons.1 h with rfl | h
        · exact Nat.le_refl _
        · exact Nat.le_trans (ih _ h) (parentPath_length_le d)

theorem ancestorChain_self (fuel : Nat) (d : Path) (h : d ≠ []) :
    d ∈ ancestorChain (fuel + 1) d := by
  unfold ancestorChain
  rw [if_neg (by simpa using h)]
  split <;> simp

/-- Creation of a file whose parent directory does not exist yet and can be created. -/
theorem CreateFile_fresh (files : FileSystem) (p : Path)
    (hfree : pathExists files p = false)
    (hpar : pathExists files (parentPath p) = false)
    (hne : parentPath p ≠ [])
    (hlt : (parentPath p).length < p.length)
    (hchain : (ancestorChain ((parentPath p).length + 1) (parentPath p)).any
      (fun a => (files.file a).isSome) = false) :
    ∃ files1, CreateFile files p = some (true, storeFile files1 p [])
      ∧ files1.file = files.file := by
  have hdirp : files.dir (parentPath p) = false := by
    unfold pathExists at hpar
    simp only [Bool.or_eq_false_iff] at hpar
    exact hpar.2
  have hfilep : files.file (parentPath p) = none := by
    unfold pathExists at hpar
    simp only [Bool.or_eq_false_iff] at hpar
    simpa using hpar.1
  have hcd : createDirectories files (parentPath p)
      = some (true, ⟨files.file, fun q => files.dir q
          || (ancestorChain ((parentPath p).length + 1) (parentPath p)).contains q⟩) := by
    unfold createDirectories
    rw [if_neg (by simpa using hne), hchain]
    simp [hdirp]
  have hnotin : p ∉ ancestorChain ((parentPath p).length + 1) (parentPath p) := by
    intro hm
    have := ancestorChain_length_le _ _ _ hm
    omega
  have hopen : canOpenNewFile ⟨files.file, fun q => files.dir q
      || (ancestorChain ((parentPath p).length + 1) (parentPath p)).contains q⟩ p = true := by
    have hdp : files.dir p = false := by
      unfold pathExists at hfree
      simp only [Bool.or_eq_false_iff] at hfree
      exact hfree.2
    have hself := ancestorChain_self (parentPath p).length (parentPath p) hne
    simp [canOpenNewFile, isDirectory, hdp, hnotin, hfilep, hself]
  refine ⟨⟨files.file, fun q => files.dir q
      || (ancestorChain ((parentPath p).length + 1) (parentPath p)).contains q⟩, ?_, rfl⟩
  unfold CreateFile
  simp only [hfree, hpar, hcd, hopen, if_true, Bool.false_eq_true, if_false]

theorem eraseLastFour_txt (base : Str) :
    eraseLastFour (base ++ ".txt".toList) = some base := by
  have hlen : (base ++ ".txt".toList).length = base.length + 4 := by simp
  have h4 : 4 ≤ (base ++ ".txt".toList).length := by omega
  unfold eraseLastFour
  rw [if_pos h4, hlen, Nat.add_sub_cancel, List.take_left]

theorem takeWhile_append_stop (p : Char → Bool) (l rest : List Char) (c : Char)
    (hl : ∀ x ∈ l, p x = true) (hc : p c = false) :
    (l ++ c :: rest).takeWhile p = l := by
  induction l with
  | nil => simp [List.takeWhile, hc]
  | cons a t ih =>
    have ha : p a = true := hl a (by simp)
    rw [List.cons_append, List.takeWhile_cons, ha, if_pos rfl,
      ih (fun x hx => hl x (by simp [hx]))]

theorem filename_after_separator (windows : Bool) (dir rest : Str) (c : Char)
    (hc : isSeparator windows c = true)
    (hrest : ∀ x ∈ rest, isSeparator windows x = false) :
    filename windows (dir ++ c :: rest) = rest := by
  unfold filename
  have hrev : (dir ++ c :: rest).reverse = rest.reverse ++ c :: dir.reverse := by simp
  rw [hrev, takeWhile_append_stop _ rest.reverse dir.reverse c
    (fun x hx => by simp [hrest x (List.mem_reverse.1 hx)]) (by simp [hc])]
  simp

theorem filename_derivedPath (windows : Bool) (name : Str)
    (hname : ∀ c ∈ name, isSeparator windows c = false) :
    filename windows (derivedPath dirPath name) = name ++ ".txt".toList := by
  have e : derivedPath dirPath name
      = "todo_lists".toList ++ '/' :: (name ++ ".txt".toList) := by
    rw [derivedPath_dirPath]
    rfl
  rw [e]
  apply filename_after_separator
  · cases windows <;> decide
  · intro x hx
    rcases List.mem_append.1 hx with hx | hx
    · exact hname x hx
    · have h4 : ∀ y ∈ ".txt".toList, isSeparator windows y = false := by
        cases windows <;> decide
      exact h4 x hx

theorem listLines_txt (windows : Bool) (count : Nat) (paths : List Path)
    (h : ∀ p ∈ paths, ∃ base, filename windows p = base ++ ".txt".toList) :
    ∃ out, listLines windows count paths = some out
      ∧ out.length = paths.length
      ∧ ∀ j p base, paths[j]? = some p → filename windows p = base ++ ".txt".toList →
          out[j]? = some (toDecimal (count + j) ++ " : ".toList ++ base ++ "\n".toList) := by
  induction paths generalizing count with
  | nil => exact ⟨[], rfl, rfl, by simp⟩
  | cons p ps ih =>
    obtain ⟨base, hbase⟩ := h p (by simp)
    obtain ⟨rest, hrest, hlen, hget⟩ := ih (count + 1) (fun q hq => h q (by simp [hq]))
    refine ⟨(toDecimal count ++ " : ".toList ++ base ++ "\n".toList) :: rest, ?_, ?_, ?_⟩
    · unfold listLines
      rw [hbase, eraseLastFour_txt]
      simp only [hrest, Option.map_some']
    · simp [hlen]
    · intro j q b hq hb
      cases j with
      | zero =>
        simp only [List.getElem?_cons_zero, Option.some.injEq] at hq
        subst hq
        rw [hbase] at hb
        have : base = b := List.append_cancel_right hb
        subst this
        simp
      | succ j =>
        simp only [List.getElem?_cons_succ] at hq ⊢
        rw [hget j q b hq hb]
        have e : count + 1 + j = count + (j + 1) := by omega
        rw [e]

/-! ## C10: the menu command `list` -/

/-- C10, as stated, fails: for a registry holding the path "todo_lists/notes.md", whose
base file name has no suffix ".txt", `list` prints "1 : note": the last four characters
are removed whatever they are, whereas stripping the suffix ".txt" and nothing else would
leave "notes.md".  For a base file name shorter than four characters the erase is
undefined. -/
theorem menu_list_counterexample :
    listLines false 1 ["todo_lists/notes.md".toList] = some ["1 : note\n".toList]
      ∧ specListName false "todo_lists/notes.md".toList = "notes.md".toList
      ∧ listLines false 1 ["todo_lists/notes.md".toList]
          ≠ some ["1 : ".toList ++ specListName false "todo_lists/notes.md".toList ++ "\n".toList]
      ∧ listLines false 1 ["abc".toList] = none := by
  decide

/-- C10 (amended): for every registry in which the base file name of each path ends with
".txt", the menu command `list` shows one line per registry path, in insertion order and
numbered from 1, whose name is the base file name of that path with the suffix ".txt"
stripped and nothing else removed, and the registry itself is not modified; in
particular, for a path that `add name` put into the registry (name without a path
separator) the base file name is name followed by ".txt", so the displayed name is
exactly name. -/
theorem menu_list_lines (windows : Bool) (m : Menu) (line : Str)
    (hline : (getNext line).1 = "list".toList)
    (htxt : ∀ p ∈ m.todoListPaths, ∃ base, filename windows p = base ++ ".txt".toList) :
    ∃ out, menuStep windows m line = MenuStep.next m out none
      ∧ out.length = m.todoListPaths.length
      ∧ (∀ j p base, m.todoListPaths[j]? = some p →
          filename windows p = base ++ ".txt".toList →
          out[j]? = some (toDecimal (j + 1) ++ " : ".toList ++ base ++ "\n".toList))
      ∧ (∀ name, (∀ c ∈ name, isSeparator windows c = false) →
          filename windows (derivedPath dirPath name) = name ++ ".txt".toList) := by
  obtain ⟨out, hout, hlen, hget⟩ := listLines_txt windows 1 m.todoListPaths htxt
  have h1 : ¬ ("list".toList = "exit".toList) := by decide
  refine ⟨out, ?_, hlen, ?_, fun name hname => filename_derivedPath windows name hname⟩
  · unfold menuStep
    simp only [hline, h1, if_false, if_true, hout]
  · intro j p base hp hb
    rw [hget j p base hp hb, Nat.add_comm]

/-- C10, instance: with the registry "todo_lists/milk.txt", "todo_lists/eggs.txt" the
command `list` prints "1 : milk" and "2 : eggs" and keeps the registry. -/
theorem menu_list_lines_witness :
    menuStep false ⟨noFiles, ["todo_lists/milk.txt".toList, "todo_lists/eggs.txt".toList]⟩
        "list".toList
      = MenuStep.next
          ⟨noFiles, ["todo_lists/milk.txt".toList, "todo_lists/eggs.txt".toList]⟩
          ["1 : milk\n".toList, "2 : eggs\n".toList] none := by
  obtain ⟨out, h1, h2, h3, _⟩ :=
    menu_list_lines false
      ⟨noFiles, ["todo_lists/milk.txt".toList, "todo_lists/eggs.txt".toList]⟩
      "list".toList (by decide)
      (by
        intro p hp
        simp only [List.mem_cons, List.mem_singleton, List.not_mem_nil, or_false] at hp
        rcases hp with rfl | rfl
        · exact ⟨"milk".toList, by decide⟩
        · exact ⟨"eggs".toList, by decide⟩)
  rw [h1]
  have e0 := h3 0 _ "milk".toList rfl (by decide)
  have e1 := h3 1 _ "eggs".toList rfl (by decide)
  match out, h2, e0, e1 with
  | [a, b], _, e0, e1 =>
    simp only [List.getElem?_cons_zero, List.getElem?_cons_succ, Option.some.injEq] at e0 e1
    rw [e0, e1]
    rfl

/-! ## C11 and C12: loading and persisting the registry -/

theorem foldl_snoc_eq (acc l : List Path) :
    l.foldl (fun todoListPaths path => todoListPaths ++ [path]) acc = acc ++ l := by
  induction l generalizing acc with
  | nil => simp
  | cons a t ih => simp [ih]

/-- Reading a text made of terminated lines followed by an unterminated rest: every
terminated line is delivered, empty or not, and the rest is delivered when it is not
empty. -/
theorem readLines_lines_rest (ls : List Str) (rest : Str)
    (hls : ∀ l ∈ ls, '\n' ∉ l) (hrest : '\n' ∉ rest) :
    readLines ((ls.map (fun l => l ++ ['\n'])).flatten ++ rest)
      = ls ++ (if rest.isEmpty then [] else [rest]) := by
  unfold readLines
  induction ls with
  | nil =>
    simp only [List.map_nil, List.flatten_nil, List.nil_append]
    have hgen : ∀ (cur r : Str), '\n' ∉ r →
        getLinesLoop cur r = if (cur ++ r).isEmpty then [] else [cur ++ r] := by
      intro cur r hr
      induction r generalizing cur with
      | nil => simp [getLinesLoop]
      | cons c cs ih =>
        have hc : ¬ c = '\n' := fun e => hr (by simp [e])
        have hcs : '\n' ∉ cs := fun e => hr (by simp [e])
        rw [getLinesLoop_cons, if_neg hc, ih (cur ++ [c]) hcs]
        simp
    simpa using hgen [] rest hrest
  | cons a t ih =>
    simp only [List.map_cons, List.flatten_cons, List.append_assoc, List.singleton_append,
      List.cons_append]
    rw [getLinesLoop_line [] a _ (hls a (by simp))]
    simp only [List.nil_append]
    rw [ih (fun p hp => hls p (by simp [hp]))]

/-- Every text is a sequence of terminated lines followed by an unterminated rest. -/
theorem content_lines_rest (content : Str) :
    ∃ (ls : List Str) (rest : Str), (∀ l ∈ ls, '\n' ∉ l) ∧ '\n' ∉ rest
      ∧ content = (ls.map (fun l => l ++ ['\n'])).flatten ++ rest := by
  induction content with
  | nil => exact ⟨[], [], by simp, by simp, by simp⟩
  | cons c cs ih =>
    obtain ⟨ls, rest, hls, hrest, hcs⟩ := ih
    by_cases hc : c = '\n'
    · refine ⟨[] :: ls, rest, ?_, hrest, ?_⟩
      · intro l hl
        rcases List.mem_cons.1 hl with rfl | hl
        · simp
        · exact hls l hl
      · simp [hc, hcs]
    · cases ls with
      | nil =>
        refine ⟨[], c :: rest, by simp, ?_, by simpa using hcs⟩
        intro hmem
        rcases List.mem_cons.1 hmem with h | h
        · exact hc h.symm
        · exact hrest h
      | cons l t =>
        refine ⟨(c :: l) :: t, rest, ?_, hrest, by simpa using hcs⟩
        intro x hx
        rcases List.mem_cons.1 hx with rfl | hx
        · intro hmem
          rcases List.mem_cons.1 hmem with h | h
          · exact hc h.symm
          · exact hls l (by simp) h
        · exact hls x (by simp [hx])

theorem loadRegistry_of_file (files : FileSystem) (content : Str)
    (h : files.file listDirPath = some content) :
    loadRegistry files = some ⟨files, readLines content⟩ := by
  unfold loadRegistry
  rw [CreateFile_of_exists files listDirPath (pathExists_of_file files listDirPath content h)]
  simp [GetLinesFromFile, pathExists_of_file files listDirPath content h, h, foldl_snoc_eq]

theorem CreateFile_in_directory (files : FileSystem) (p : Path)
    (hfree : pathExists files p = false)
    (hdir : isDirectory files (parentPath p) = true) :
    CreateFile files p = some (true, storeFile files p []) := by
  have hpar : pathExists files (parentPath p) = true := by
    unfold isDirectory at hdir
    unfold pathExists
    simp only [Bool.and_eq_true] at hdir
    simp [hdir.2]
  have hnd : isDirectory files p = false := by
    unfold pathExists at hfree
    simp only [Bool.or_eq_false_iff] at hfree
    simp [isDirectory, hfree.2]
  unfold CreateFile
  simp [hfree, hpar, canOpenNewFile, hnd, hdir]

theorem loadRegistry_of_created (files files1 : FileSystem)
    (h : CreateFile files listDirPath = some (true, storeFile files1 listDirPath [])) :
    loadRegistry files = some ⟨storeFile files1 listDirPath [], []⟩ := by
  unfold loadRegistry
  rw [h]
  simp [GetLinesFromFile, pathExists, storeFile, readLines, getLinesLoop]

/-- Directory of the index file. -/
theorem parentPath_listDirPath : parentPath listDirPath = "data".toList := by
  decide

/-- When nothing is at the path of the index file and its directory "data" exists or
nothing is at "data", `CreateFile` creates the empty index file (and the directory, if
needed) and leaves the regular files alone. -/
theorem CreateFile_index_absent (files : FileSystem)
    (hfree : pathExists files listDirPath = false)
    (hdata : isDirectory files "data".toList = true ∨ pathExists files "data".toList = false) :
    ∃ files1, CreateFile files listDirPath = some (true, storeFile files1 listDirPath [])
      ∧ files1.file = files.file := by
  rcases hdata with hdir | hnone
  · exact ⟨files, CreateFile_in_directory files listDirPath hfree
      (by rw [parentPath_listDirPath]; exact hdir), rfl⟩
  · have hfile : files.file "data".toList = none := by
      unfold pathExists at hnone
      simp only [Bool.or_eq_false_iff] at hnone
      simpa using hnone.1
    exact CreateFile_fresh files listDirPath hfree
      (by rw [parentPath_listDirPath]; exact hnone)
      (by rw [parentPath_listDirPath]; decide)
      (by rw [parentPath_listDirPath]; decide)
      (by
        rw [parentPath_listDirPath]
        have hchain : ancestorChain ("data".toList.length + 1) "data".toList
            = ["data".toList] := by decide
        rw [hchain]
        show ((files.file "data".toList).isSome || false) = false
        rw [hfile]
        rfl)

/-- C11, as stated, fails: the index file "a.txt<LF><LF>b.txt<LF>" has the non-empty lines
"a.txt" and "b.txt", but the loaded registry has three entries: the empty line between
them becomes an empty path entry. -/
theorem loadRegistry_empty_line_counterexample :
    (loadRegistry (storeFile noFiles listDirPath "a.txt\n\nb.txt\n".toList)).map
          (fun m => m.todoListPaths)
        = some ["a.txt".toList, [], "b.txt".toList]
      ∧ (readLines "a.txt\n\nb.txt\n".toList).filter (fun l => !l.isEmpty)
        = ["a.txt".toList, "b.txt".toList] := by
  decide

/-- C11 (amended): for every content of the index file, the registry loaded at startup is
exactly the sequence of the lines of the file, in file order, each as one path entry, an
empty line giving an empty path entry.  The content is taken as the lines that end with a
line feed, each without it, followed by the rest after the last line feed: the registry
is these lines, empty ones included, followed by the rest when it is not empty, and the
file system is left as it was; every content has this shape.  An absent index file whose
directory "data" exists or can be created is created empty and yields the empty
registry, and no other file changes. -/
theorem loadRegistry_all_lines (files : FileSystem) :
    (∀ (ls : List Str) (rest : Str), (∀ l ∈ ls, '\n' ∉ l) → '\n' ∉ rest →
        files.file listDirPath = some ((ls.map (fun l => l ++ ['\n'])).flatten ++ rest) →
        loadRegistry files = some ⟨files, ls ++ (if rest.isEmpty then [] else [rest])⟩)
      ∧ (∀ content, files.file listDirPath = some content →
          ∃ (ls : List Str) (rest : Str), (∀ l ∈ ls, '\n' ∉ l) ∧ '\n' ∉ rest
            ∧ content = (ls.map (fun l => l ++ ['\n'])).flatten ++ rest)
      ∧ (pathExists files listDirPath = false →
          (isDirectory files "data".toList = true ∨ pathExists files "data".toList = false) →
          ∃ files1, loadRegistry files = some ⟨files1, []⟩
            ∧ files1.file listDirPath = some []
            ∧ ∀ q, q ≠ listDirPath → files1.file q = files.file q) := by
  refine ⟨?_, ?_, ?_⟩
  · intro ls rest hls hrest h
    rw [loadRegistry_of_file files _ h, readLines_lines_rest ls rest hls hrest]
  · intro content _
    exact content_lines_rest content
  · intro hfree hdata
    obtain ⟨files1, hc, hsame⟩ := CreateFile_index_absent files hfree hdata
    refine ⟨storeFile files1 listDirPath [], loadRegistry_of_created files files1 hc,
      storeFile_file_same _ _ _, ?_⟩
    intro q hq
    rw [storeFile_file_other _ _ _ _ hq, hsame]

/-- C11, instance: the index file "a.txt<LF><LF>b.txt", whose second line is empty and
whose last line has no line feed, loads as the three entries "a.txt", the empty path and
"b.txt"; and with no file and no directory at all the registry is empty. -/
theorem loadRegistry_all_lines_witness :
    loadRegistry (storeFile noFiles listDirPath "a.txt\n\nb.txt".toList)
        = some ⟨storeFile noFiles listDirPath "a.txt\n\nb.txt".toList,
            ["a.txt".toList, [], "b.txt".toList]⟩
      ∧ ∃ files1, loadRegistry noFiles = some ⟨files1, []⟩
          ∧ files1.file listDirPath = some [] :=
  ⟨(loadRegistry_all_lines (storeFile noFiles listDirPath "a.txt\n\nb.txt".toList)).1
      ["a.txt".toList, []] "b.txt".toList (by decide) (by decide)
      (by rw [storeFile_file_same]; rfl),
    by
      obtain ⟨files1, h1, h2, _⟩ :=
        (loadRegistry_all_lines noFiles).2.2 (by decide) (Or.inr (by decide))
      exact ⟨files1, h1, h2⟩⟩

theorem outString_foldl (acc : Str) (paths : List Path) :
    paths.foldl (fun outString path => outString ++ (path ++ "\n".toList)) acc
      = acc ++ (paths.map (fun path => path ++ ['\n'])).flatten := by
  induction paths generalizing acc with
  | nil => simp
  | cons a t ih =>
    simp only [List.foldl_cons, ih, List.map_cons, List.flatten_cons, List.append_assoc]
    rfl

theorem readLines_flatten_paths (paths : List Path) (h : ∀ p ∈ paths, '\n' ∉ p) :
    readLines ((paths.map (fun path => path ++ ['\n'])).flatten) = paths := by
  have hr := readLines_lines_rest paths [] h (by simp)
  simpa using hr

/-- C12: for every registry whose paths contain no line break (non-empty or not), held
by the program while the index file exists (startup has created it) or can be created
(nothing is at its path, and its directory "data" exists or nothing is at "data"),
persisting it replaces the content of the index file, whatever it was, by exactly each
path followed by one line feed, in order, and leaves every other file alone; loading
that index file at the next startup yields exactly the same path sequence in the same
order; and the interrupt handler, holding the index path and the registry, writes the
same files as the normal exit. -/
theorem registry_roundtrip (m : Menu) (h : ∀ p ∈ m.todoListPaths, '\n' ∉ p)
    (hindex : (m.files.file listDirPath).isSome = true
      ∨ (pathExists m.files listDirPath = false
        ∧ (isDirectory m.files "data".toList = true
          ∨ pathExists m.files "data".toList = false))) :
    ∃ files1, persistRegistry m = some files1
      ∧ files1.file listDirPath
          = some ((m.todoListPaths.map (fun path => path ++ ['\n'])).flatten)
      ∧ (∀ q, q ≠ listDirPath → files1.file q = m.files.file q)
      ∧ loadRegistry files1 = some ⟨files1, m.todoListPaths⟩
      ∧ signalHandler listDirPath m.todoListPaths m.files = persistRegistry m := by
  have hp : ∃ files0, (∀ q, q ≠ listDirPath → files0.file q = m.files.file q)
      ∧ persistRegistry m
      = some (storeFile files0 listDirPath
          ((m.todoListPaths.map (fun path => path ++ ['\n'])).flatten)) := by
    rcases hindex with hfile | ⟨hfree, hdata⟩
    · obtain ⟨old, hold⟩ := Option.isSome_iff_exists.1 hfile
      refine ⟨m.files, fun _ _ => rfl, ?_⟩
      unfold persistRegistry
      rw [WriteToFile_of_file m.files listDirPath _ old false hold, outString_foldl]
      simp
    · obtain ⟨files1, hc, hsame⟩ := CreateFile_index_absent m.files hfree hdata
      refine ⟨storeFile files1 listDirPath [],
        fun q hq => by rw [storeFile_file_other _ _ _ _ hq, hsame], ?_⟩
      unfold persistRegistry WriteToFile
      rw [hc, outString_foldl]
      simp [storeFile_file_same]
  obtain ⟨files0, hsame, hp⟩ := hp
  refine ⟨_, hp, storeFile_file_same _ _ _, ?_, ?_, rfl⟩
  · intro q hq
    rw [storeFile_file_other _ _ _ _ hq, hsame q hq]
  · rw [loadRegistry_of_file _ _ (storeFile_file_same _ _ _), readLines_flatten_paths _ h]

/-- C12, instance: the registry "todo_lists/milk.txt", "todo_lists/eggs.txt" is written
over an old index file as "todo_lists/milk.txt<LF>todo_lists/eggs.txt<LF>" and loaded
back unchanged. -/
theorem registry_roundtrip_witness :
    ∃ files1,
      persistRegistry ⟨storeFile noFiles listDirPath "old.txt\n".toList,
          ["todo_lists/milk.txt".toList, "todo_lists/eggs.txt".toList]⟩ = some files1
        ∧ files1.file listDirPath
            = some "todo_lists/milk.txt\ntodo_lists/eggs.txt\n".toList
        ∧ (loadRegistry files1).map (fun m => m.todoListPaths)
            = some ["todo_lists/milk.txt".toList, "todo_lists/eggs.txt".toList] := by
  obtain ⟨files1, h1, h2, _, h5, _⟩ :=
    registry_roundtrip ⟨storeFile noFiles listDirPath "old.txt\n".toList,
      ["todo_lists/milk.txt".toList, "todo_lists/eggs.txt".toList]⟩ (by decide)
      (Or.inl (by decide))
  exact ⟨files1, h1, by rw [h2]; decide, by rw [h5]; rfl⟩

/-! ## C14: totality of `done` -/

/-- C14, failing inputs: `done 1` on the single entry "buy milk", which has no opening
bracket, passes `npos` to `replace`, which throws; and `done 2` on the same one-entry
sequence passes the bounds test and indexes the sequence at position 1, its length, so
`at` throws.  In both cases the command does not complete. -/
theorem session_done_not_total :
    sessionDone (demoSession (demoFiles "buy milk\n".toList) ["buy milk".toList] 2) "1".toList
        = Step.terminated
      ∧ findFirstOf "buy milk".toList '[' = none
      ∧ sessionDone (demoSession (demoFiles "buy milk\n".toList) ["buy milk".toList] 2)
          "2".toList = Step.terminated
      ∧ markDone ["buy milk".toList] 1 = none := by
  exact ⟨rfl, by decide, rfl, by decide⟩

/-! ## C15: the tokenizer consumes one delimiter -/

/-- C15: for every input line that contains a space, the command returned by `getNext`
contains no space, and command, one space and remainder, put together, are the original
line character for character; nothing else is trimmed. -/
theorem getNext_consumes_one_space (line : Str) (h : ' ' ∈ line) :
    ' ' ∉ (getNext line).1
      ∧ (getNext line).1 ++ ' ' :: (getNext line).2 = line := by
  cases hf : findFirstOf line ' ' with
  | none => exact absurd h ((findFirstOf_eq_none_iff line ' ').1 hf)
  | some n =>
    obtain ⟨h1, h2, _⟩ := findFirstOf_eq_some line ' ' n hf
    simp only [getNext, hf]
    exact ⟨h2, h1.symm⟩

/-- C15, instance: "add  call  mom " gives the command "add" and the remainder
" call  mom ". -/
theorem getNext_consumes_one_space_witness :
    getNext "add  call  mom ".toList = ("add".toList, " call  mom ".toList)
      ∧ ' ' ∉ (getNext "add  call  mom ".toList).1
      ∧ (getNext "add  call  mom ".toList).1 ++ ' ' :: (getNext "add  call  mom ".toList).2
          = "add  call  mom ".toList := by
  have h := getNext_consumes_one_space "add  call  mom ".toList (by decide)
  exact ⟨by decide, h.1, h.2⟩

/-! ## C16: rendering -/

theorem printEntries_foldl (acc : Str) (entries : List Str) :
    entries.foldl
        (fun out entry => if endsWith entry '\n' then out ++ entry else out ++ entry ++ ['\n'])
        acc
      = acc ++ (entries.map (fun e => stripTerminator e ++ ['\n'])).flatten := by
  induction entries generalizing acc with
  | nil => simp
  | cons e es ih =>
    simp only [List.foldl_cons, ih, List.map_cons, List.flatten_cons]
    rw [← terminate_eq]
    by_cases h : endsWith e '\n' = true <;> simp [h]

theorem printEntries_eq (entries : List Str) :
    printEntries entries = (entries.map (fun e => stripTerminator e ++ ['\n'])).flatten := by
  unfold printEntries
  rw [printEntries_foldl]
  simp

theorem count_newline_flatten (entries : List Str)
    (h : ∀ e ∈ entries, '\n' ∉ stripTerminator e) :
    ((entries.map (fun e => stripTerminator e ++ ['\n'])).flatten).count '\n'
      = entries.length := by
  induction entries with
  | nil => simp
  | cons e es ih =>
    have he : (stripTerminator e).count '\n' = 0 := List.count_eq_zero.2 (h e (by simp))
    simp only [List.map_cons, List.flatten_cons, List.count_append, List.length_cons,
      ih (fun x hx => h x (by simp [hx])), he]
    simp
    omega

theorem stripTerminator_terminated (body : Str) :
    stripTerminator (body ++ ['\n']) = body := by
  unfold stripTerminator
  have h : endsWith (body ++ ['\n']) '\n' = true := by
    unfold endsWith
    rw [List.getLast?_concat]
    simp
  rw [if_pos h]
  exact List.dropLast_concat

/-- The entries a session holds have no interior line feed: the loaded ones are lines of
the file, the added ones are made from an input line. -/
theorem opened_noBreak (m : Menu) (openArg : Str) (s0 s : Session) (cmds : List Str)
    (hopen : menuOpen m openArg = Except.ok s0) (hcmds : ∀ l ∈ cmds, '\n' ∉ l)
    (hrun : sessionAfter s0 cmds = some s) :
    ∀ e ∈ s.entries, '\n' ∉ stripTerminator e := by
  apply sessionAfter_noBreak s0 s cmds hrun hcmds
  rw [(menuOpen_ok m openArg s0 hopen).2]
  exact readLines_noBreak _

/-- C16: for every entry sequence the program renders, that is the entries of a session
opened by the menu command `open` on any list file and continued by any input lines
(the sequence shown after `open`, after an `add` and after a `done`), whatever the
storage form of each entry (with a trailing line feed, as made by `add`, or without one,
as loaded), `printEntries` emits the entries in order, each as its text without
terminator followed by exactly one line feed, so the number of line feeds in the
rendered text equals the number of entries; and an entry renders identically in both
storage forms, wherever it stands in a sequence. -/
theorem printEntries_one_newline_per_entry (m : Menu) (openArg : Str) (s0 s : Session)
    (cmds : List Str)
    (hopen : menuOpen m openArg = Except.ok s0)
    (hcmds : ∀ l ∈ cmds, '\n' ∉ l)
    (hrun : sessionAfter s0 cmds = some s) :
    printEntries s.entries = (s.entries.map (fun e => stripTerminator e ++ ['\n'])).flatten
      ∧ (printEntries s.entries).count '\n' = s.entries.length
      ∧ (∀ e ∈ s.entries, '\n' ∉ stripTerminator e)
      ∧ (∀ pre post body, '\n' ∉ body →
          printEntries (pre ++ (body ++ ['\n']) :: post) = printEntries (pre ++ body :: post)) := by
  have hclean := opened_noBreak m openArg s0 s cmds hopen hcmds hrun
  refine ⟨printEntries_eq s.entries, ?_, hclean, ?_⟩
  · rw [printEntries_eq, count_newline_flatten s.entries hclean]
  · intro pre post body hb
    simp only [printEntries_eq, List.map_append, List.map_cons,
      stripTerminator_terminated body, stripTerminator_of_no_newline body hb]

/-- C16, instance: the list file "1<TAB>[X] - milk" is opened, which loads its entry
without terminator, and `add eggs` appends an entry with terminator; the two entries are
rendered as two lines with two line feeds. -/
theorem printEntries_one_newline_per_entry_witness :
    printEntries ["1\t[X] - milk".toList, "2\t[ ] - eggs\n".toList]
        = "1\t[X] - milk\n2\t[ ] - eggs\n".toList
      ∧ (printEntries ["1\t[X] - milk".toList, "2\t[ ] - eggs\n".toList]).count '\n' = 2 := by
  obtain ⟨h1, h2, _⟩ :=
    printEntries_one_newline_per_entry ⟨demoFiles "1\t[X] - milk".toList, []⟩ "a".toList
      (demoSession (demoFiles "1\t[X] - milk".toList) ["1\t[X] - milk".toList] 2)
      (demoSession
        (storeFile (demoFiles "1\t[X] - milk".toList) demoPath
          "1\t[X] - milk2\t[ ] - eggs\n".toList)
        ["1\t[X] - milk".toList, "2\t[ ] - eggs\n".toList] 3)
      ["add eggs".toList] rfl (by decide) rfl
  exact ⟨h1.trans (by decide), h2⟩

/-! ## Facts about the entry pattern -/

theorem toDigitsCore_ne_nil (fuel n : Nat) (acc : List Char) (h : acc ≠ []) :
    Nat.toDigitsCore 10 fuel n acc ≠ [] := by
  induction fuel generalizing n acc with
  | zero => simpa [Nat.toDigitsCore] using h
  | succ fuel ih =>
    unfold Nat.toDigitsCore
    simp only
    split
    · simp
    · exact ih _ _ (by simp)

theorem toDecimal_ne_nil (n : Nat) : toDecimal n ≠ [] := by
  unfold toDecimal Nat.toDigits Nat.toDigitsCore
  simp only
  split
  · simp
  · exact toDigitsCore_ne_nil _ _ _ (by simp)

theorem dropWhile_append_stop (p : Char → Bool) (l rest : List Char) (c : Char)
    (hl : ∀ x ∈ l, p x = true) (hc : p c = false) :
    (l ++ c :: rest).dropWhile p = c :: rest := by
  induction l with
  | nil => simp [List.dropWhile, hc]
  | cons a t ih =>
    have ha : p a = true := hl a (by simp)
    rw [List.cons_append, List.dropWhile_cons, ha, if_pos rfl,
      ih (fun x hx => hl x (by simp [hx]))]

theorem isEntryLine_iff (e : Str) : isEntryLine e = true ↔ EntryForm e := by
  constructor
  · intro h
    simp only [isEntryLine, Bool.and_eq_true, Bool.not_eq_true', Bool.or_eq_true,
      List.isPrefixOf_iff_prefix] at h
    obtain ⟨hne, hpre⟩ := h
    have hsplit := List.takeWhile_append_dropWhile Char.isDigit e
    have hdig : ∀ c ∈ e.takeWhile Char.isDigit, c.isDigit = true :=
      fun c hc => List.mem_takeWhile_imp hc
    have hne2 : e.takeWhile Char.isDigit ≠ [] := by
      intro h0
      rw [h0] at hne
      simp at hne
    rcases hpre with ⟨t, ht⟩ | ⟨t, ht⟩
    · have he : e = e.takeWhile Char.isDigit ++ ("\t[ ] - ".toList ++ t) := by
        rw [ht]; exact hsplit.symm
      exact ⟨_, ' ', t, he, hne2, hdig, Or.inl rfl⟩
    · have he : e = e.takeWhile Char.isDigit ++ ("\t[X] - ".toList ++ t) := by
        rw [ht]; exact hsplit.symm
      exact ⟨_, 'X', t, he, hne2, hdig, Or.inr rfl⟩
  · rintro ⟨digits, marker, desc, rfl, hne, hdig, hm⟩
    have ht : Char.isDigit '\t' = false := by decide
    unfold isEntryLine
    rw [takeWhile_append_stop Char.isDigit digits _ '\t' hdig ht,
      dropWhile_append_stop Char.isDigit digits _ '\t' hdig ht]
    have h1 : digits.isEmpty = false := by
      cases digits with
      | nil => exact absurd rfl hne
      | cons a t => rfl
    rcases hm with rfl | rfl <;> simp [h1, List.isPrefixOf]

theorem entryForm_findFirstOf (digits : Str) (marker : Char) (desc : Str)
    (hdig : ∀ c ∈ digits, c.isDigit = true) :
    findFirstOf (digits ++ '\t' :: '[' :: marker :: ']' :: ' ' :: '-' :: ' ' :: desc) '['
      = some (digits.length + 1) := by
  have hpre : '[' ∉ digits ++ ['\t'] := by
    intro hm
    rcases List.mem_append.1 hm with hm | hm
    · exact absurd (hdig _ hm) (by decide)
    · exact absurd hm (by decide)
  have h := findFirstOf_append_cons (digits ++ ['\t'])
    (marker :: ']' :: ' ' :: '-' :: ' ' :: desc) '[' hpre
  simpa using h

theorem entryForm_append (x y : Str) (h : EntryForm x) : EntryForm (x ++ y) := by
  obtain ⟨digits, marker, desc, rfl, hne, hdig, hm⟩ := h
  exact ⟨digits, marker, desc ++ y, by simp, hne, hdig, hm⟩

theorem entryForm_stripTerminator (e : Str) (h : EntryForm e) :
    EntryForm (stripTerminator e) := by
  unfold stripTerminator
  by_cases hend : endsWith e '\n' = true
  · rw [if_pos hend]
    obtain ⟨digits, marker, desc, rfl, hne, hdig, hm⟩ := h
    rcases List.eq_nil_or_concat desc with rfl | ⟨d, b, rfl⟩
    · exfalso
      have e1 : digits ++ '\t' :: '[' :: marker :: ']' :: ' ' :: '-' :: ' ' :: ([] : Str)
          = (digits ++ '\t' :: '[' :: marker :: ']' :: ' ' :: ['-']) ++ [' '] := by simp
      rw [e1] at hend
      unfold endsWith at hend
      rw [List.getLast?_concat] at hend
      simp at hend
    · refine ⟨digits, marker, d, ?_, hne, hdig, hm⟩
      simp only [List.concat_eq_append]
      have e1 : digits ++ '\t' :: '[' :: marker :: ']' :: ' ' :: '-' :: ' ' :: (d ++ [b])
          = (digits ++ '\t' :: '[' :: marker :: ']' :: ' ' :: '-' :: ' ' :: d) ++ [b] := by simp
      rw [e1, List.dropLast_concat]
  · rw [if_neg hend]
    exact h

theorem entryForm_formatEntry (count : Nat) (d : Str) : EntryForm (formatEntry count d) :=
  ⟨toDecimal count, ' ', d ++ ['\n'], by simp [formatEntry], toDecimal_ne_nil count,
    toDecimal_isDigit count, Or.inl rfl⟩

theorem markDone_entryForm (entries es : List Str) (index : Nat)
    (h : markDone entries index = some es) (hF : ∀ e ∈ entries, EntryForm e) :
    ∀ e ∈ es, EntryForm e := by
  cases hget : entries[index]? with
  | none => simp [markDone, hget] at h
  | some entry =>
    obtain ⟨digits, marker, desc, rfl, hne, hdig, hm⟩ := hF entry (List.getElem?_mem hget)
    have hpre : '[' ∉ digits ++ ['\t'] := by
      intro hmem
      rcases List.mem_append.1 hmem with hmem | hmem
      · exact absurd (hdig _ hmem) (by decide)
      · exact absurd hmem (by decide)
    have hget2 : entries[index]?
        = some ((digits ++ ['\t']) ++ '[' :: (marker :: ']' :: ' ' :: '-' :: ' ' :: desc)) := by
      rw [hget]; simp
    rw [markDone_at_bracket entries index _ _ hget2 hpre] at h
    cases h
    intro e he
    rcases List.mem_or_eq_of_mem_set he with he | rfl
    · exact hF e he
    · exact ⟨digits, 'X', desc, by simp, hne, hdig, Or.inr rfl⟩

theorem getLinesLoop_append_entry (F : Str → Prop) (hF : ∀ x y, F x → F (x ++ y))
    (body : Str) (hbody : F body) (hnl : '\n' ∉ body) (cur rest : Str)
    (h : ∀ l ∈ getLinesLoop cur rest, F l) :
    ∀ l ∈ getLinesLoop cur (rest ++ (body ++ ['\n'])), F l := by
  induction rest generalizing cur with
  | nil =>
    intro l hl
    rw [List.nil_append, getLinesLoop_line cur body [] hnl] at hl
    simp only [getLinesLoop, List.isEmpty_nil, if_true, List.mem_singleton] at hl
    subst hl
    by_cases hc : cur.isEmpty = true
    · have : cur = [] := by simpa using hc
      subst this
      simpa using hbody
    · exact hF _ _ (h cur (by simp [getLinesLoop, hc]))
  | cons c cs ih =>
    intro l hl
    rw [List.cons_append, getLinesLoop_cons] at hl
    rw [getLinesLoop_cons] at h
    by_cases hc : c = '\n'
    · rw [if_pos hc] at hl h
      rcases List.mem_cons.1 hl with rfl | hl
      · exact h _ (by simp)
      · exact ih [] (fun x hx => h x (by simp [hx])) l hl
    · rw [if_neg hc] at hl h
      exact ih (cur ++ [c]) h l hl

theorem reloadedLines_eq_readLines (s : Session) :
    reloadedLines s = readLines ((s.files.file s.currentTodoList).getD []) := by
  unfold reloadedLines GetLinesFromFile
  cases hf : s.files.file s.currentTodoList with
  | none => cases hex : pathExists s.files s.currentTodoList <;> simp [readLines, getLinesLoop]
  | some c => simp [pathExists_of_file _ _ _ hf]

theorem sessionStep_entryForm (s s1 : Session) (line : Str) (d : Option Diagnostic)
    (h : sessionStep s line = Step.next s1 d) (hline : '\n' ∉ line)
    (hF : ∀ e ∈ s.entries, EntryForm e)
    (hclean : ∀ e ∈ s.entries, '\n' ∉ stripTerminator e)
    (hfile : ∀ l ∈ reloadedLines s, EntryForm l) :
    (∀ e ∈ s1.entries, EntryForm e) ∧ (∀ l ∈ reloadedLines s1, EntryForm l) := by
  have hclean1 := sessionStep_noBreak s s1 line d h hline hclean
  rcases sessionStep_next_cases s s1 line d h with
    ⟨_, w, hw, rfl⟩ | rfl | ⟨es, w, hw, rfl, _, hes⟩
  · constructor
    · intro e he
      simp only [List.mem_append, List.mem_singleton] at he
      rcases he with he | rfl
      · exact hF e he
      · exact entryForm_formatEntry _ _
    · rw [reloadedLines_eq_readLines] at hfile ⊢
      rcases (WriteToFile_some _ _ _ _ _ hw).2.1 with hsame | hnew
      · simp only [hsame]
        exact hfile
      · simp only [hnew, if_true, Option.getD_some]
        have hbody := (formatEntry_terminated s.count (getNext line).2)
        rw [← hbody.1]
        apply getLinesLoop_append_entry EntryForm entryForm_append _
          (entryForm_stripTerminator _ (entryForm_formatEntry _ _))
          (formatEntry_noBreak _ _ (fun hc => hline (getNext_snd_subset line _ hc)))
        exact hfile
  · exact ⟨hF, hfile⟩
  · have hes1 : ∀ e ∈ es, EntryForm e := by
      rcases hes with ⟨rfl, _⟩ | ⟨_, idx, hm⟩
      · exact hF
      · exact markDone_entryForm _ _ _ hm hF
    refine ⟨hes1, ?_⟩
    rw [reloadedLines_eq_readLines] at hfile ⊢
    rcases (WriteToFile_some _ _ _ _ _ hw).2.1 with hsame | hnew
    · simp only [hsame]
      exact hfile
    · simp only [hnew, Bool.false_eq_true, if_false, Option.getD_some]
      rw [readLines_serializeEntries es hclean1]
      intro l hl
      obtain ⟨e, he, rfl⟩ := List.mem_map.1 hl
      exact entryForm_stripTerminator e (hes1 e he)

theorem sessionAfter_entryForm (s s1 : Session) (lines : List Str)
    (h : sessionAfter s lines = some s1) (hlines : ∀ l ∈ lines, '\n' ∉ l)
    (hF : ∀ e ∈ s.entries, EntryForm e)
    (hclean : ∀ e ∈ s.entries, '\n' ∉ stripTerminator e)
    (hfile : ∀ l ∈ reloadedLines s, EntryForm l) :
    (∀ e ∈ s1.entries, EntryForm e) ∧ (∀ l ∈ reloadedLines s1, EntryForm l) := by
  induction lines generalizing s with
  | nil => simp [sessionAfter] at h; subst h; exact ⟨hF, hfile⟩
  | cons l ls ih =>
    unfold sessionAfter at h
    cases hstep : sessionStep s l with
    | next s2 d =>
      rw [hstep] at h
      have hl := hlines l (by simp)
      obtain ⟨g1, g2⟩ := sessionStep_entryForm s s2 l d hstep hl hF hclean hfile
      exact ih s2 h (fun x hx => hlines x (by simp [hx])) g1
        (sessionStep_noBreak s s2 l d hstep hl hclean) g2
    | close _ => rw [hstep] at h; cases h
    | exit _ => rw [hstep] at h; cases h
    | terminated => rw [hstep] at h; cases h
    | undefined => rw [hstep] at h; cases h

/-! ## C13: the entry-format invariant -/

/-- C13: if every line loaded when a list is opened has the entry pattern (decimal index,
tabulator, marker "[ ]" or "[X]", " - ", description), then after any input lines (free
of line feeds) that kept the session running, whether `add`, `done`, rejected or unknown
commands, every in-memory entry and every line of the list file still has the pattern;
in an entry of the pattern the first opening bracket is that of the marker; and `done`
on such an entry changes only its marker to "[X]" and leaves index and description as
they were, whatever the description contains. -/
theorem entry_format_invariant (m : Menu) (openArg : Str) (s0 s : Session)
    (cmds : List Str)
    (hopen : menuOpen m openArg = Except.ok s0)
    (hloaded : ∀ e ∈ s0.entries, isEntryLine e = true)
    (hcmds : ∀ l ∈ cmds, '\n' ∉ l)
    (hrun : sessionAfter s0 cmds = some s) :
    (∀ e ∈ s.entries, isEntryLine e = true)
      ∧ (∀ l ∈ reloadedLines s, isEntryLine l = true)
      ∧ (∀ e ∈ s.entries, ∀ digits marker desc,
          e = digits ++ '\t' :: '[' :: marker :: ']' :: ' ' :: '-' :: ' ' :: desc →
          (∀ c ∈ digits, c.isDigit = true) →
          findFirstOf e '[' = some (digits.length + 1))
      ∧ (∀ (line arg : Str) (i : Nat) (digits : Str) (marker : Char) (desc : Str),
          getNext line = ("done".toList, arg) → extractInt arg = some (i : Int) → 1 ≤ i →
          s.entries[i - 1]?
            = some (digits ++ '\t' :: '[' :: marker :: ']' :: ' ' :: '-' :: ' ' :: desc) →
          (∀ c ∈ digits, c.isDigit = true) →
          ∃ s1, sessionStep s line = Step.next s1 none
            ∧ s1.entries = s.entries.set (i - 1)
                (digits ++ '\t' :: '[' :: 'X' :: ']' :: ' ' :: '-' :: ' ' :: desc)) := by
  obtain ⟨_, hs0⟩ := menuOpen_ok m openArg s0 hopen
  have hexists := opened_pathExists m openArg s0 s cmds hopen hrun
  have hF0 : ∀ e ∈ s0.entries, EntryForm e := fun e he => (isEntryLine_iff e).1 (hloaded e he)
  have hclean0 : ∀ e ∈ s0.entries, '\n' ∉ stripTerminator e := by
    rw [hs0]; exact readLines_noBreak _
  have hfile0 : ∀ l ∈ reloadedLines s0, EntryForm l := by
    have : reloadedLines s0 = s0.entries := by
      rw [reloadedLines_eq_readLines, hs0]
    rw [this]; exact hF0
  obtain ⟨hF, hfile⟩ := sessionAfter_entryForm s0 s cmds hrun hcmds hF0 hclean0 hfile0
  refine ⟨fun e he => (isEntryLine_iff e).2 (hF e he),
    fun l hl => (isEntryLine_iff l).2 (hfile l hl), ?_, ?_⟩
  · intro e _ digits marker desc he hdig
    rw [he]
    exact entryForm_findFirstOf digits marker desc hdig
  · intro line arg i digits marker desc hline hi h1 hget hdig
    have hd1 : ¬ ("done".toList = "close".toList) := by decide
    have hd2 : ¬ ("done".toList = "add".toList) := by decide
    have hstep : sessionStep s line = sessionDone s arg := by
      simp [sessionStep, hline, hd1, hd2]
    have hlt : i - 1 < s.entries.length := by
      rcases List.getElem?_eq_some_iff.1 hget with ⟨h, _⟩
      exact h
    have hpre : '[' ∉ digits ++ ['\t'] := by
      intro hmem
      rcases List.mem_append.1 hmem with hmem | hmem
      · exact absurd (hdig _ hmem) (by decide)
      · exact absurd hmem (by decide)
    have hget2 : s.entries[i - 1]?
        = some ((digits ++ ['\t']) ++ '[' :: (marker :: ']' :: ' ' :: '-' :: ' ' :: desc)) := by
      rw [hget]; simp
    obtain ⟨w, _, hdone⟩ := sessionDone_marks s arg i _ _ hexists hi h1 hget2 hpre
    rw [hstep, hdone]
    refine ⟨_, rfl, ?_⟩
    simp

/-- C13, instance: on the list file "1<TAB>[ ] - milk<LF>", after `add eggs [soon]`, both
entries have the pattern, and `done 2` turns the second entry into
"2<TAB>[X] - eggs [soon]<LF>" although its description contains a bracket. -/
theorem entry_format_invariant_witness :
    (∀ e ∈ ["1\t[ ] - milk".toList, "2\t[ ] - eggs [soon]\n".toList], isEntryLine e = true)
      ∧ ∃ s1, sessionStep
            (demoSession
              (storeFile (demoFiles "1\t[ ] - milk\n".toList) demoPath
                "1\t[ ] - milk\n2\t[ ] - eggs [soon]\n".toList)
              ["1\t[ ] - milk".toList, "2\t[ ] - eggs [soon]\n".toList] 3)
            "done 2".toList = Step.next s1 none
          ∧ s1.entries = ["1\t[ ] - milk".toList, "2\t[X] - eggs [soon]\n".toList] := by
  obtain ⟨h1, _, _, h4⟩ :=
    entry_format_invariant ⟨demoFiles "1\t[ ] - milk\n".toList, []⟩ "a".toList
      (demoSession (demoFiles "1\t[ ] - milk\n".toList) ["1\t[ ] - milk".toList] 2)
      (demoSession
        (storeFile (demoFiles "1\t[ ] - milk\n".toList) demoPath
          "1\t[ ] - milk\n2\t[ ] - eggs [soon]\n".toList)
        ["1\t[ ] - milk".toList, "2\t[ ] - eggs [soon]\n".toList] 3)
      ["add eggs [soon]".toList] rfl (by decide) (by decide) rfl
  obtain ⟨s1, g1, g2⟩ :=
    h4 "done 2".toList "2".toList 2 "2".toList ' ' "eggs [soon]\n".toList
      (by decide) (by decide) (by decide) (by decide) (by decide)
  exact ⟨h1, s1, g1, by rw [g2]; decide⟩

end TodoApp
